import Mathlib

/-!
# cmu_reg_ics_scraper: a verification development of `main.go`

The program reads four header dates and an HTML schedule table, groups the
table's course slots by weekday, and emits two weekly recurring events per
course (before and after the mid-semester break).

Modelling conventions

* A Go `string` holding text is a Lean `String` (a sequence of code points):
  the HTML parser behind `goquery` takes its input to be UTF-8 encoded, and so
  does this development. The byte-indexed operations of the source (`s[:11]`,
  `t[2:4]`, the argument of `strconv.ParseUint`) go through the UTF-8 encoding
  `utf8Encode`, so a byte is a `Nat` below 256 and a slice may cut a code
  point.
* A `time.Time` is a number of seconds since the Unix epoch in UTC, which is
  the location `time.Parse` gives to every date of this program.
* A call that ends the process (`panic`, `log.Fatal`, an index or slice bound
  out of range) is the `error` of `Except Failure`.
* `map[Course][]string` is an association list in insertion order; the HTML
  document is the list of its `.day-time-cell` elements, each the list of its
  `.text-truncate` entries, each the list of the texts of its `span` children.
-/

namespace CmuRegIcs

/-! ## Failures -/

/-- The ways a run of the program ends without a result. -/
inductive Failure where
  /-- The `panic("something wrong")` of `findStartDate`. -/
  | somethingWrong
  /-- Run-time panic: `splited[1]` with no second piece. -/
  | indexOutOfRange
  /-- Run-time panic: `[:11]` on a string of fewer than 11 bytes. -/
  | sliceBoundsOutOfRange
  /-- The `log.Fatal(err)` of `parseTime`. -/
  | fatalParseUint
  /-- The `log.Fatal(err)` of `parseInputDate`. -/
  | fatalParseDate
  deriving DecidableEq, Repr

deriving instance DecidableEq for Except

/-! ## The parts of Go's `time` package the program uses -/

/-- A `time.Time` in UTC: seconds since 1970-01-01T00:00:00Z. -/
structure Time where
  unix : Int
  deriving DecidableEq, Repr

/-- Seconds in a day. -/
def secondsPerDay : Int := 86400

/-- Number of the day that holds `t`, counted from 1970-01-01. -/
def Time.dayNumber (t : Time) : Int := t.unix / secondsPerDay

/-- The method `t.AddDate(0, 0, days)`: in UTC every day has 86400 seconds and
the clock reading is kept. -/
def Time.AddDate (t : Time) (days : Int) : Time := ⟨t.unix + days * secondsPerDay⟩

/-- The method `t.Weekday()`, with Sunday = 0, ..., Saturday = 6
(1970-01-01 was a Thursday). -/
def Time.Weekday (t : Time) : Nat := ((t.dayNumber + 4) % 7).toNat

/-- The method `Weekday.String()`. -/
def weekdayString (d : Nat) : String :=
  match d with
  | 0 => "Sunday"
  | 1 => "Monday"
  | 2 => "Tuesday"
  | 3 => "Wednesday"
  | 4 => "Thursday"
  | 5 => "Friday"
  | 6 => "Saturday"
  | _ => "%!Weekday(" ++ toString d ++ ")"

/-- The function `strings.ToUpper` on the ASCII letters. -/
def toUpper (s : String) : String := ⟨s.data.map Char.toUpper⟩

/-- The function `getWeekDay`: the first two letters of the weekday's English name, in
capitals (the names are ASCII, so two bytes are two characters). -/
def getWeekDay (t : Time) : String :=
  toUpper ⟨(weekdayString t.Weekday).data.take 2⟩

/-! ## `findStartDate` -/

/-- Indexing a Go `map[string]int`: the stored value, or 0 for a missing key. -/
def mapIndexInt (m : List (String × Int)) (k : String) : Int :=
  (m.lookup k).getD 0

/-- The local `weekdayMap` of `findStartDate`. -/
def findStartDate.weekdayMap : List (String × Int) :=
  [("MO", 0), ("TU", 1), ("WE", 2), ("TH", 3), ("FR", 4), ("SA", 5), ("SU", 6)]

/-- The `for _, d := range weekdays` loop of `findStartDate`, followed by the
`panic` that ends the function. -/
def findStartDate.loop (ref : Time) (curr : Int) : List String → Except Failure Time
  | [] => .error .somethingWrong
  | d :: rest =>
    let diff := mapIndexInt findStartDate.weekdayMap d - curr
    if diff ≥ 0 then .ok (ref.AddDate diff) else findStartDate.loop ref curr rest

/-- The function `findStartDate`. -/
def findStartDate (ref : Time) (weekdays : List String) : Except Failure Time :=
  let curr := mapIndexInt findStartDate.weekdayMap (getWeekDay ref)
  findStartDate.loop ref curr weekdays

/-! ### The reference definition of the first occurrence -/

/-- The seven weekday codes. -/
def weekdayCodes : List String := ["MO", "TU", "WE", "TH", "FR", "SA", "SU"]

/-- Offsets of the weekday codes in the specification: MO=0, ..., SU=6. -/
def specOffset (c : String) : Option Int :=
  if c = "MO" then some 0
  else if c = "TU" then some 1
  else if c = "WE" then some 2
  else if c = "TH" then some 3
  else if c = "FR" then some 4
  else if c = "SA" then some 5
  else if c = "SU" then some 6
  else none

/-- The weekday code of a date in the specification's vocabulary. -/
def specWeekdayCode (t : Time) : String :=
  match t.Weekday with
  | 0 => "SU"
  | 1 => "MO"
  | 2 => "TU"
  | 3 => "WE"
  | 4 => "TH"
  | 5 => "FR"
  | _ => "SA"

/-- Whether code `c` has a non-negative offset from `cur`. -/
def specForward (cur : Int) (c : String) : Bool :=
  match specOffset c with
  | some k => decide (k - cur ≥ 0)
  | none => false

/-- The reference definition: the first code in list order with a non-negative
offset from the reference's weekday decides the date; no such code is a
failure. -/
def findStartDateSpec (ref : Time) (codes : List String) : Except Failure Time :=
  match specOffset (specWeekdayCode ref) with
  | none => .error .somethingWrong
  | some cur =>
    match codes.find? (specForward cur) with
    | none => .error .somethingWrong
    | some c =>
      match specOffset c with
      | some k => .ok (ref.AddDate (k - cur))
      | none => .error .somethingWrong

/-! ### Sorted code lists -/

/-- Position of a code in the Monday-to-Sunday order. -/
def codeRank (c : String) : Nat := weekdayCodes.indexOf c

/-- A list of codes in non-decreasing Monday-to-Sunday order. -/
def mondayToSunday (codes : List String) : Prop :=
  codes.Pairwise (fun a b => codeRank a ≤ codeRank b)

instance (codes : List String) : Decidable (mondayToSunday codes) := by
  unfold mondayToSunday; infer_instance

/-! ## Text: the parts of Go's `strings` and `strconv` packages the program uses -/

/-- The predicate `unicode.IsSpace`. -/
def isSpace (c : Char) : Bool :=
  let n := c.toNat
  decide (n = 0x09 ∨ n = 0x0A ∨ n = 0x0B ∨ n = 0x0C ∨ n = 0x0D ∨ n = 0x20 ∨ n = 0x85 ∨
    n = 0xA0 ∨ n = 0x1680 ∨ (0x2000 ≤ n ∧ n ≤ 0x200A) ∨ n = 0x2028 ∨ n = 0x2029 ∨
    n = 0x202F ∨ n = 0x205F ∨ n = 0x3000)

/-- Leading white space removed. -/
def trimLeft (l : List Char) : List Char := l.dropWhile isSpace

/-- Trailing white space removed. -/
def trimRight : List Char → List Char
  | [] => []
  | c :: cs =>
    match trimRight cs with
    | [] => if isSpace c then [] else [c]
    | r :: rs => c :: r :: rs

/-- The function `strings.TrimSpace`. -/
def TrimSpace (s : String) : String := ⟨trimRight (trimLeft s.data)⟩

/-- Pieces of a text between its commas, at least one piece. -/
def splitComma : List Char → List (List Char)
  | [] => [[]]
  | c :: cs =>
    if c = ',' then [] :: splitComma cs
    else
      match splitComma cs with
      | [] => [[c]]
      | p :: ps => (c :: p) :: ps

/-- The call `strings.Split(s, ",")`. -/
def Split (s : String) : List String := (splitComma s.data).map String.mk

/-- UTF-8 bytes of one code point. -/
def utf8EncodeChar (c : Char) : List Nat :=
  let v := c.toNat
  if v < 0x80 then [v]
  else if v < 0x800 then [0xC0 + v / 64, 0x80 + v % 64]
  else if v < 0x10000 then [0xE0 + v / 4096, 0x80 + v / 64 % 64, 0x80 + v % 64]
  else [0xF0 + v / 262144, 0x80 + v / 4096 % 64, 0x80 + v / 64 % 64, 0x80 + v % 64]

/-- UTF-8 bytes of a list of code points. -/
def utf8Bytes : List Char → List Nat
  | [] => []
  | c :: cs => utf8EncodeChar c ++ utf8Bytes cs

/-- The bytes of a Go string. -/
def utf8Encode (s : String) : List Nat := utf8Bytes s.data

/-- The slice expression `s[lo:hi]` on bytes, for `lo ≤ hi ≤ len(s)`. -/
def slice (s : List Nat) (lo hi : Nat) : List Nat := (s.take hi).drop lo

/-- Whether a byte is an ASCII digit. -/
def isDigitByte (b : Nat) : Bool := decide (48 ≤ b ∧ b ≤ 57)

/-- One step of the digit loop of `strconv.ParseUint(s, 10, 64)`: a byte that
is no digit is a syntax error, a value of 2^64 or more a range error. -/
def ParseUint.step (acc : Option Nat) (b : Nat) : Option Nat :=
  match acc with
  | none => none
  | some n =>
    if isDigitByte b then
      if n * 10 + (b - 48) < 2 ^ 64 then some (n * 10 + (b - 48)) else none
    else none

/-- The call `strconv.ParseUint(s, 10, 64)`: `none` when it returns an error
(the empty string is a syntax error). -/
def ParseUint (s : List Nat) : Option Nat :=
  if s = [] then none else s.foldl ParseUint.step (some 0)

/-- The conversion `int(v)` of a `uint64` on a 64-bit platform. -/
def uint64ToInt (v : Nat) : Int := if v < 2 ^ 63 then (v : Int) else (v : Int) - 2 ^ 64

/-- The function `parseTime`. -/
def parseTime (s : List Nat) : Except Failure Int :=
  match ParseUint s with
  | none => .error .fatalParseUint
  | some v => .ok (uint64ToInt v)

/-! ## The course record and the cell parser -/

/-- The struct `Course`. -/
structure Course where
  title : String
  id : String
  room : String
  startHour : Int
  startMinute : Int
  endHour : Int
  endMinute : Int
  deriving DecidableEq, Repr

/-- The zero value of `Course` (`var data Course`). -/
def Course.zero : Course := ⟨"", "", "", 0, 0, 0, 0⟩

/-- The four `parseTime` statements of the span closure on the string `t`. -/
def parseTimes (t : List Nat) (data : Course) : Except Failure Course :=
  match parseTime (slice t 0 2) with
  | .error e => .error e
  | .ok startHour =>
    match parseTime (slice t 2 4) with
    | .error e => .error e
    | .ok startMinute =>
      match parseTime (slice t 7 9) with
      | .error e => .error e
      | .ok endHour =>
        match parseTime (slice t 9 11) with
        | .error e => .error e
        | .ok endMinute =>
          .ok { data with
            startHour := startHour, startMinute := startMinute,
            endHour := endHour, endMinute := endMinute }

/-- The `k == 2` branch of the span closure: room and times from the third
span's trimmed text. -/
def parseField3 (trimmedString : String) (data : Course) : Except Failure Course :=
  let splited := Split trimmedString
  match splited with
  | [] => .error .indexOutOfRange
  | s0 :: more =>
    let data := { data with room := TrimSpace s0 }
    match more with
    | [] => .error .indexOutOfRange
    | s1 :: _ =>
      let bytes := utf8Encode (TrimSpace s1)
      if bytes.length < 11 then .error .sliceBoundsOutOfRange
      else parseTimes (slice bytes 0 11) data

/-- The closure applied to the `k`-th `span` child of an entry. -/
def spanStep (k : Nat) (text : String) (data : Course) : Except Failure Course :=
  let trimmedString := TrimSpace text
  let data := if k = 0 then { data with title := trimmedString } else data
  let data := if k = 1 then { data with id := trimmedString } else data
  if k = 2 then parseField3 trimmedString data else .ok data

/-- The `Each` over the `span` children of an entry, from child `k` on. -/
def spanLoop (k : Nat) : List String → Course → Except Failure Course
  | [], data => .ok data
  | text :: rest, data =>
    match spanStep k text data with
    | .error e => .error e
    | .ok data => spanLoop (k + 1) rest data

/-- The cell parser: the record of one `.text-truncate` entry, given the texts
of its `span` children. -/
def parseEntry (spans : List String) : Except Failure Course :=
  spanLoop 0 spans Course.zero

/-! ## The table walker -/

/-- The `map[Course][]string` of the walker, in insertion order. -/
abbrev CourseMap := List (Course × List String)

/-- The `weekdayMap` of `main`. -/
def main.weekdayMap : List (Nat × String) :=
  [(1, "MO"), (2, "TU"), (3, "WE"), (4, "TH"), (5, "FR"), (6, "SA"), (7, "SU")]

/-- Indexing a Go `map[int]string`: the stored value, or the empty string for a
missing key. -/
def mapIndexString (m : List (Nat × String)) (k : Nat) : String :=
  (m.lookup k).getD ""

/-- The statement `courses[data] = append(courses[data], code)`. -/
def appendWeekday (courses : CourseMap) (data : Course) (code : String) : CourseMap :=
  match courses with
  | [] => [(data, [code])]
  | (key, weekdays) :: rest =>
    if key = data then (key, weekdays ++ [code]) :: rest
    else (key, weekdays) :: appendWeekday rest data code

/-- The `Each` over the entries of the day cell with index `i`. -/
def walkEntries (i : Nat) : List (List String) → CourseMap → Except Failure CourseMap
  | [], courses => .ok courses
  | entry :: rest, courses =>
    match parseEntry entry with
    | .error e => .error e
    | .ok data => walkEntries i rest (appendWeekday courses data (mapIndexString main.weekdayMap i))

/-- The `Each` over the day cells, from the cell with index `i` on. -/
def walkCells (i : Nat) : List (List (List String)) → CourseMap → Except Failure CourseMap
  | [], courses => .ok courses
  | cell :: rest, courses =>
    match walkEntries i cell courses with
    | .error e => .error e
    | .ok courses => walkCells (i + 1) rest courses

/-- The table walker of `main`: the mapping built from the day cells of the
document, starting from the empty map and the cell index 0. -/
def walk (table : List (List (List String))) : Except Failure CourseMap :=
  walkCells 0 table []

/-! ## Calendar dates: the parts of `time.Date`, `time.Parse` and `Time.Format` used -/

/-- Civil date (year, month, day) of a day number counted from 1970-01-01, in
the proleptic Gregorian calendar. -/
def civilFromDays (z : Int) : Int × Int × Int :=
  let z := z + 719468
  let era := z / 146097
  let doe := z % 146097
  let yoe := (doe - doe / 1460 + doe / 36524 - doe / 146096) / 365
  let doy := doe - (365 * yoe + yoe / 4 - yoe / 100)
  let mp := (5 * doy + 2) / 153
  let d := doy - (153 * mp + 2) / 5 + 1
  let m := if mp < 10 then mp + 3 else mp - 9
  let y := yoe + era * 400
  (if m ≤ 2 then y + 1 else y, m, d)

/-- Day number, counted from 1970-01-01, of a civil date; the day may lie
outside the month and is carried over. -/
def daysFromCivil (y m d : Int) : Int :=
  let y := if m ≤ 2 then y - 1 else y
  let era := y / 400
  let yoe := y % 400
  let mp := if m > 2 then m - 3 else m + 9
  let doy := (153 * mp + 2) / 5 + d - 1
  let doe := yoe * 365 + yoe / 4 - yoe / 100 + doy
  era * 146097 + doe - 719468

/-- The method `t.Year()`. -/
def Time.Year (t : Time) : Int := (civilFromDays t.dayNumber).1

/-- The method `t.Month()`. -/
def Time.Month (t : Time) : Int := (civilFromDays t.dayNumber).2.1

/-- The method `t.Day()`. -/
def Time.Day (t : Time) : Int := (civilFromDays t.dayNumber).2.2

/-- The method `t.Hour()`. -/
def Time.Hour (t : Time) : Int := t.unix % secondsPerDay / 3600

/-- The method `t.Minute()`. -/
def Time.Minute (t : Time) : Int := t.unix % 3600 / 60

/-- The method `t.Second()`. -/
def Time.Second (t : Time) : Int := t.unix % 60

/-- The function `time.Date(year, month, day, hour, min, sec, 0, time.UTC)`:
values outside their usual ranges are carried over. -/
def Date (year month day hour min sec : Int) : Time :=
  let year := year + (month - 1) / 12
  let month := (month - 1) % 12 + 1
  ⟨daysFromCivil year month day * secondsPerDay + hour * 3600 + min * 60 + sec⟩

/-- The zero value of `time.Time`: January 1 of year 1, 00:00:00 UTC. -/
def Time.zero : Time := Date 1 1 1 0 0 0

/-- The function `setHourMin`. -/
def setHourMin (t : Time) (hour minute : Int) : Time :=
  Date t.Year t.Month t.Day hour minute 0

/-- Decimal rendering in `width` places, zero padded, wider when the value needs
it, as `appendInt` of package `time` does. -/
def appendInt (x : Int) (width : Nat) : List Char :=
  let u := x.natAbs
  let digits := Nat.toDigits 10 u
  let padded := List.replicate (width - digits.length) '0' ++ digits
  if x < 0 then '-' :: padded else padded

/-- The method `t.Format(icalTimestampFormatLocal)`, layout `20060102T150405`. -/
def formatLocal (t : Time) : String :=
  ⟨appendInt t.Year 4 ++ appendInt t.Month 2 ++ appendInt t.Day 2 ++ ['T'] ++
    appendInt t.Hour 2 ++ appendInt t.Minute 2 ++ appendInt t.Second 2⟩

/-- Whether a character is an ASCII digit (`isDigit` of package `time`). -/
def isDigitChar (c : Char) : Bool := decide (48 ≤ c.toNat ∧ c.toNat ≤ 57)

/-- Value of a digit character. -/
def digitValue (c : Char) : Int := (c.toNat : Int) - 48

/-- Whether a year is a leap year. -/
def isLeap (year : Int) : Bool :=
  decide (year % 4 = 0 ∧ (year % 100 ≠ 0 ∨ year % 400 = 0))

/-- Number of days of a month (`daysIn` of package `time`). -/
def daysIn (month year : Int) : Int :=
  if month = 2 then (if isLeap year then 29 else 28)
  else if month = 4 ∨ month = 6 ∨ month = 9 ∨ month = 11 then 30
  else 31

/-- The function `parseInputDate`: `time.Parse` with the layout `02/01/2006`
(two-digit day, two-digit month, four-digit year, nothing after them, month
and day in range), ending the run on an error. -/
def parseInputDate (s : String) : Except Failure Time :=
  match s.data with
  | [d1, d2, '/', m1, m2, '/', y1, y2, y3, y4] =>
    if isDigitChar d1 ∧ isDigitChar d2 ∧ isDigitChar m1 ∧ isDigitChar m2 ∧
        isDigitChar y1 ∧ isDigitChar y2 ∧ isDigitChar y3 ∧ isDigitChar y4 then
      let day := digitValue d1 * 10 + digitValue d2
      let month := digitValue m1 * 10 + digitValue m2
      let year := digitValue y1 * 1000 + digitValue y2 * 100 + digitValue y3 * 10 + digitValue y4
      if month < 1 ∨ 12 < month then .error .fatalParseDate
      else if day < 1 ∨ daysIn month year < day then .error .fatalParseDate
      else .ok (Date year month day 0 0 0)
    else .error .fatalParseDate
  | _ => .error .fatalParseDate

/-! ## Events -/

/-- The properties `createEvent` sets on an event, apart from the random UID
and the `DTSTAMP` of the current time. -/
structure Event where
  summary : String
  location : String
  dtstart : String
  dtend : String
  rrule : String
  deriving DecidableEq, Repr

/-- The call `strings.Join(elems, ",")`. -/
def Join : List String → String
  | [] => ""
  | [a] => a
  | a :: b :: rest => a ++ "," ++ Join (b :: rest)

/-- The function `createEvent`. -/
def createEvent (course : Course) (startTime endTime : Time) (weekdays : List String) :
    Except Failure Event :=
  match findStartDate startTime weekdays with
  | .error e => .error e
  | .ok d =>
    let start := setHourMin d course.startHour course.startMinute
    let finish := setHourMin d course.endHour course.endMinute
    let byday := Join weekdays
    let untilText := formatLocal endTime
    .ok {
      summary := course.title ++ ", " ++ course.id
      location := course.room
      dtstart := formatLocal start
      dtend := formatLocal finish
      rrule := "FREQ=WEEKLY;WKST=SU;BYDAY=" ++ byday ++ ";UNTIL=" ++ untilText }

/-! ## `main` -/

/-- The four date variables of `main`. -/
structure Window where
  semesterStart : Time
  midtermStart : Time
  midtermEnd : Time
  semesterEnd : Time
  deriving DecidableEq, Repr

/-- The body of the header loop for the line `text` read at step `i`. -/
def headerStep (i : Nat) (text : String) (w : Window) : Except Failure Window :=
  match (if i = 0 then
      (parseInputDate text).map (fun t => { w with semesterStart := t })
    else .ok w) with
  | .error e => .error e
  | .ok w =>
    match (if i = 1 then
        (parseInputDate text).map (fun t => { w with midtermStart := t.AddDate (-1) })
      else .ok w) with
    | .error e => .error e
    | .ok w =>
      match (if i = 2 then
          (parseInputDate text).map (fun t => { w with midtermEnd := t.AddDate 1 })
        else .ok w) with
      | .error e => .error e
      | .ok w =>
        if i = 3 then (parseInputDate text).map (fun t => { w with semesterEnd := t })
        else .ok w

/-- The header loop `for i := 0; i < 4; i++` from step `i` on, with
`remaining = 4 - i` steps to go; once `scanner.Scan()` finds no line, the
steps that are left do nothing. -/
def headerLoop : Nat → Nat → List String → Window → Except Failure Window
  | 0, _, _, w => .ok w
  | _ + 1, _, [], w => .ok w
  | remaining + 1, i, text :: rest, w =>
    match headerStep i text w with
    | .error e => .error e
    | .ok w => headerLoop remaining (i + 1) rest w

/-- The date variables after the header loop over the lines of the file. -/
def readHeader (lines : List String) : Except Failure Window :=
  headerLoop 4 0 lines ⟨Time.zero, Time.zero, Time.zero, Time.zero⟩

/-- The body of the emit loop for one entry of the map: the events `e1`, `e2`. -/
def emitCourse (w : Window) (course : Course) (weekdays : List String) :
    Except Failure (Event × Event) :=
  match createEvent course w.semesterStart w.midtermStart weekdays with
  | .error e => .error e
  | .ok e1 =>
    match createEvent course w.midtermEnd w.semesterEnd weekdays with
    | .error e => .error e
    | .ok e2 => .ok (e1, e2)

/-- The emit loop `for course, weekdays := range courses`, in the order of the
association list: the events added to the calendar. -/
def emitLoop (w : Window) : CourseMap → Except Failure (List Event)
  | [] => .ok []
  | (course, weekdays) :: rest =>
    match emitCourse w course weekdays with
    | .error e => .error e
    | .ok (e1, e2) =>
      match emitLoop w rest with
      | .error e => .error e
      | .ok events => .ok (e1 :: e2 :: events)

/-- The function `main` up to the calendar's events: `lines` are the lines of
the input file the header loop reads, `table` the day cells of the document
made of the remaining lines. -/
def run (lines : List String) (table : List (List (List String))) :
    Except Failure (List Event) :=
  match readHeader lines with
  | .error e => .error e
  | .ok w =>
    match walk table with
    | .error e => .error e
    | .ok courses => emitLoop w courses

/-! ## Notions used to state the properties -/

/-- The text up to the first comma. -/
def uptoComma : List Char → List Char
  | [] => []
  | c :: cs => if c = ',' then [] else c :: uptoComma cs

/-- Decimal value of a run of digit bytes. -/
def decimalValue (bs : List Nat) : Int :=
  bs.foldl (fun acc b => acc * 10 + ((b : Int) - 48)) 0

/-- The keys of the map. -/
def keys (courses : CourseMap) : List Course := courses.map Prod.fst

/-- The read `courses[data]`: the stored slice, or the empty one for a missing
key. -/
def weekdaysOf : CourseMap → Course → List String
  | [], _ => []
  | (key, weekdays) :: rest, data => if key = data then weekdays else weekdaysOf rest data

/-- Whether an entry carries the record `c`. -/
def carries (c : Course) (entry : List String) : Bool :=
  decide (parseEntry entry = .ok c)

/-- Indices of the day cells that hold the record `c`, in walking order, one
for each entry that carries it; the first cell has index `i`. -/
def occurrences (i : Nat) : List (List (List String)) → Course → List Nat
  | [], _ => []
  | cell :: rest, c =>
    List.replicate (cell.countP (carries c)) i ++ occurrences (i + 1) rest c

/-- Number of day cells that hold an entry carrying the record `c`. -/
def columnCount (table : List (List (List String))) (c : Course) : Nat :=
  table.countP (fun cell => cell.any (carries c))

/-- Number of entries of the table that carry the record `c`. -/
def entryCount (table : List (List (List String))) (c : Course) : Nat :=
  (table.map (fun cell => cell.countP (carries c))).sum

/-! ## Theorems: `findStartDate` -/

theorem Time.Weekday_lt (t : Time) : t.Weekday < 7 := by
  unfold Time.Weekday
  have h1 : 0 ≤ (t.dayNumber + 4) % 7 := Int.emod_nonneg _ (by norm_num)
  have h2 : (t.dayNumber + 4) % 7 < 7 := Int.emod_lt_of_pos _ (by norm_num)
  omega

theorem getWeekDay_eq_specWeekdayCode (t : Time) : getWeekDay t = specWeekdayCode t := by
  have h := Time.Weekday_lt t
  unfold getWeekDay specWeekdayCode
  generalize t.Weekday = w at h
  interval_cases w <;> rfl

theorem specOffset_of_mem {c : String} (h : c ∈ weekdayCodes) :
    specOffset c = some (mapIndexInt findStartDate.weekdayMap c) := by
  simp only [weekdayCodes, List.mem_cons, List.mem_singleton, List.not_mem_nil, or_false] at h
  rcases h with rfl | rfl | rfl | rfl | rfl | rfl | rfl <;> rfl

theorem specWeekdayCode_mem (t : Time) : specWeekdayCode t ∈ weekdayCodes := by
  have h := Time.Weekday_lt t
  unfold specWeekdayCode
  generalize t.Weekday = w at h
  interval_cases w <;> decide

theorem mapIndexInt_weekdayMap_range (d : String) :
    0 ≤ mapIndexInt findStartDate.weekdayMap d ∧ mapIndexInt findStartDate.weekdayMap d ≤ 6 := by
  unfold mapIndexInt findStartDate.weekdayMap
  simp only [List.lookup]
  repeat' split
  all_goals simp

theorem weekdayOffset_getWeekDay (t : Time) :
    mapIndexInt findStartDate.weekdayMap (getWeekDay t) = ((t.Weekday : Int) + 6) % 7 := by
  have h := Time.Weekday_lt t
  unfold getWeekDay
  generalize t.Weekday = w at h
  interval_cases w <;> rfl

theorem Time.Weekday_AddDate (t : Time) (j : Int) :
    ((t.AddDate j).Weekday : Int) = ((t.Weekday : Int) + j) % 7 := by
  unfold Time.Weekday Time.AddDate Time.dayNumber secondsPerDay
  simp only
  rw [Int.add_mul_ediv_right _ _ (by norm_num : (86400 : Int) ≠ 0)]
  have h1 : 0 ≤ (t.unix / 86400 + 4) % 7 := Int.emod_nonneg _ (by norm_num)
  have h2 : 0 ≤ (t.unix / 86400 + j + 4) % 7 := Int.emod_nonneg _ (by norm_num)
  rw [Int.toNat_of_nonneg h1, Int.toNat_of_nonneg h2]
  omega

theorem findStartDate.loop_eq_find (ref : Time) (cur : Int) (codes : List String)
    (h : ∀ c ∈ codes, c ∈ weekdayCodes) :
    findStartDate.loop ref cur codes =
      match codes.find? (specForward cur) with
      | none => .error .somethingWrong
      | some c =>
        match specOffset c with
        | some k => .ok (ref.AddDate (k - cur))
        | none => .error .somethingWrong := by
  induction codes with
  | nil => rfl
  | cons d rest ih =>
    have hd := specOffset_of_mem (h d (List.mem_cons_self _ _))
    have ih2 := ih (fun c hc => h c (List.mem_cons_of_mem _ hc))
    by_cases hdiff : mapIndexInt findStartDate.weekdayMap d - cur ≥ 0
    · simp [findStartDate.loop, List.find?, specForward, hd, hdiff]
    · simp [findStartDate.loop, List.find?, specForward, hd, hdiff, ih2]

/-- Shape of a successful loop: the codes before the chosen one all have a
negative difference, the chosen one a non-negative difference. -/
theorem findStartDate.loop_ok (ref : Time) (cur : Int) (codes : List String) (d : Time)
    (h : findStartDate.loop ref cur codes = .ok d) :
    ∃ pre c post, codes = pre ++ c :: post ∧
      (∀ x ∈ pre, mapIndexInt findStartDate.weekdayMap x - cur < 0) ∧
      0 ≤ mapIndexInt findStartDate.weekdayMap c - cur ∧
      d = ref.AddDate (mapIndexInt findStartDate.weekdayMap c - cur) := by
  induction codes with
  | nil => simp [findStartDate.loop] at h
  | cons a rest ih =>
    by_cases hdiff : mapIndexInt findStartDate.weekdayMap a - cur ≥ 0
    · simp [findStartDate.loop, hdiff] at h
      exact ⟨[], a, rest, rfl, by simp, hdiff, h.symm⟩
    · simp only [findStartDate.loop, hdiff, if_false] at h
      obtain ⟨pre, c, post, hc, hpre, hc0, hd⟩ := ih h
      refine ⟨a :: pre, c, post, by simp [hc], ?_, hc0, hd⟩
      intro x hx
      rcases List.mem_cons.mp hx with rfl | hx
      · omega
      · exact hpre x hx

theorem findStartDate.loop_error (ref : Time) (cur : Int) (codes : List String) :
    findStartDate.loop ref cur codes = .error .somethingWrong ↔
      ∀ x ∈ codes, mapIndexInt findStartDate.weekdayMap x - cur < 0 := by
  induction codes with
  | nil => simp [findStartDate.loop]
  | cons a rest ih =>
    by_cases hdiff : mapIndexInt findStartDate.weekdayMap a - cur ≥ 0
    · simp only [findStartDate.loop, hdiff, if_true, List.mem_cons, forall_eq_or_imp]
      constructor
      · intro he; cases he
      · intro h; omega
    · simp only [findStartDate.loop, hdiff, if_false, ih, List.mem_cons, forall_eq_or_imp]
      constructor
      · intro h; exact ⟨by omega, h⟩
      · intro h; exact h.2

theorem findStartDate.loop_append (ref : Time) (cur : Int) (pre rest : List String)
    (h : ∀ x ∈ pre, mapIndexInt findStartDate.weekdayMap x - cur < 0) :
    findStartDate.loop ref cur (pre ++ rest) = findStartDate.loop ref cur rest := by
  induction pre with
  | nil => rfl
  | cons a pre ih =>
    have ha : ¬ (mapIndexInt findStartDate.weekdayMap a - cur ≥ 0) := by
      have := h a (List.mem_cons_self _ _); omega
    simp only [List.cons_append, findStartDate.loop, ha, if_false]
    exact ih (fun x hx => h x (List.mem_cons_of_mem _ hx))

theorem specOffset_getWeekDay (t : Time) :
    specOffset (specWeekdayCode t) = some (mapIndexInt findStartDate.weekdayMap (getWeekDay t)) := by
  rw [getWeekDay_eq_specWeekdayCode]
  exact specOffset_of_mem (specWeekdayCode_mem t)

/-- C1: on lists of weekday codes `findStartDate` equals its reference
version `findStartDateSpec`: with offsets MO=0, ..., SU=6 and `cur` the offset
of the weekday of `ref`, the first code in list order with a non-negative
offset difference gives the date `ref` plus that many days, and the call ends
in the panic exactly when no code of the list has a non-negative difference. -/
theorem findStartDate_eq_spec (ref : Time) (codes : List String)
    (hcodes : ∀ c ∈ codes, c ∈ weekdayCodes) :
    findStartDate ref codes = findStartDateSpec ref codes ∧
    ∃ cur, specOffset (specWeekdayCode ref) = some cur ∧
      (∀ d, findStartDate ref codes = .ok d ↔
        ∃ pre c post k, codes = pre ++ c :: post ∧
          (∀ x ∈ pre, ∀ kx, specOffset x = some kx → kx - cur < 0) ∧
          specOffset c = some k ∧ 0 ≤ k - cur ∧ d = ref.AddDate (k - cur)) ∧
      (findStartDate ref codes = .error .somethingWrong ↔
        ∀ c ∈ codes, ∀ k, specOffset c = some k → k - cur < 0) := by
  have hcur := specOffset_getWeekDay ref
  refine ⟨?_, _, hcur, ?_, ?_⟩
  · unfold findStartDate findStartDateSpec
    simp only [hcur]
    exact findStartDate.loop_eq_find ref _ codes hcodes
  · intro d
    unfold findStartDate
    constructor
    · intro h
      obtain ⟨pre, c, post, hc, hpre, hc0, hd⟩ := findStartDate.loop_ok ref _ codes d h
      have hmem : ∀ x ∈ pre ++ c :: post, x ∈ weekdayCodes := hc ▸ hcodes
      refine ⟨pre, c, post, _, hc, ?_, specOffset_of_mem (hmem c (by simp)), hc0, hd⟩
      intro x hx kx hkx
      rw [specOffset_of_mem (hmem x (by simp [hx]))] at hkx
      cases hkx
      exact hpre x hx
    · rintro ⟨pre, c, post, k, hc, hpre, hk, hk0, hd⟩
      have hmem : ∀ x ∈ pre ++ c :: post, x ∈ weekdayCodes := hc ▸ hcodes
      have hk2 := specOffset_of_mem (hmem c (by simp))
      rw [hk] at hk2
      cases hk2
      subst hc
      rw [findStartDate.loop_append]
      · simp only [findStartDate.loop]
        rw [if_pos hk0, hd]
      · intro x hx
        exact hpre x hx _ (specOffset_of_mem (hmem x (by simp [hx])))
  · unfold findStartDate
    constructor
    · intro h c hc k hk
      have := (findStartDate.loop_error ref _ codes).mp h c hc
      rw [specOffset_of_mem (hcodes c hc)] at hk
      cases hk
      exact this
    · intro h
      exact (findStartDate.loop_error ref _ codes).mpr
        (fun x hx => h x hx _ (specOffset_of_mem (hcodes x hx)))

/-- Witness of C1: from a Tuesday the list FR, WE gives the Friday, although
the later code WE would give an earlier date. -/
theorem findStartDate_eq_spec_witness :
    (∀ c ∈ ["FR", "WE"], c ∈ weekdayCodes) ∧
    findStartDate ⟨432000⟩ ["FR", "WE"] = findStartDateSpec ⟨432000⟩ ["FR", "WE"] ∧
    findStartDate ⟨432000⟩ ["FR", "WE"] = .ok ⟨691200⟩ ∧
    getWeekDay ⟨432000⟩ = "TU" :=
  ⟨by decide, (findStartDate_eq_spec ⟨432000⟩ ["FR", "WE"] (by decide)).1, by decide, by decide⟩

/-- C9: whenever `findStartDate` returns a date, whatever the strings of the
list, the date is the reference plus 0 to 6 days; and on the one-element list
holding the weekday code of the reference it returns the reference itself. -/
theorem findStartDate_within_week (ref : Time) (weekdays : List String) :
    (∀ d, findStartDate ref weekdays = .ok d →
      ∃ k : Int, 0 ≤ k ∧ k ≤ 6 ∧ d = ref.AddDate k) ∧
    findStartDate ref [getWeekDay ref] = .ok ref := by
  constructor
  · intro d h
    obtain ⟨pre, c, post, -, -, hc0, hd⟩ := findStartDate.loop_ok ref _ weekdays d h
    have h1 := mapIndexInt_weekdayMap_range c
    have h2 := mapIndexInt_weekdayMap_range (getWeekDay ref)
    exact ⟨_, hc0, by omega, hd⟩
  · simp [findStartDate, findStartDate.loop, Time.AddDate]

/-- Witness of C9: from Thursday 1970-01-01 the list XX, SA gives the Saturday
two days later. -/
theorem findStartDate_within_week_witness :
    findStartDate ⟨0⟩ ["XX", "SA"] = .ok ⟨172800⟩ ∧
    (∃ k : Int, 0 ≤ k ∧ k ≤ 6 ∧ (⟨172800⟩ : Time) = Time.AddDate ⟨0⟩ k) ∧
    findStartDate ⟨0⟩ [getWeekDay ⟨0⟩] = .ok ⟨0⟩ :=
  ⟨by decide, (findStartDate_within_week ⟨0⟩ ["XX", "SA"]).1 ⟨172800⟩ (by decide),
    (findStartDate_within_week ⟨0⟩ []).2⟩

theorem codeRank_of_mem {c : String} (h : c ∈ weekdayCodes) :
    mapIndexInt findStartDate.weekdayMap c = (codeRank c : Int) := by
  simp only [weekdayCodes, List.mem_cons, List.mem_singleton, List.not_mem_nil, or_false] at h
  rcases h with rfl | rfl | rfl | rfl | rfl | rfl | rfl <;> rfl

theorem weekdayOffset_injective {a b : String} (ha : a ∈ weekdayCodes) (hb : b ∈ weekdayCodes)
    (h : mapIndexInt findStartDate.weekdayMap a = mapIndexInt findStartDate.weekdayMap b) :
    a = b := by
  simp only [weekdayCodes, List.mem_cons, List.mem_singleton, List.not_mem_nil, or_false] at ha hb
  rcases ha with rfl | rfl | rfl | rfl | rfl | rfl | rfl <;>
    rcases hb with rfl | rfl | rfl | rfl | rfl | rfl | rfl <;>
    first | rfl | (exfalso; revert h; decide)

theorem weekdayOffset_AddDate (t : Time) (j : Int) :
    mapIndexInt findStartDate.weekdayMap (getWeekDay (t.AddDate j)) =
      (mapIndexInt findStartDate.weekdayMap (getWeekDay t) + j) % 7 := by
  rw [weekdayOffset_getWeekDay, weekdayOffset_getWeekDay, Time.Weekday_AddDate]
  omega

/-- C10: on a list of weekday codes in non-decreasing Monday-to-Sunday order,
a date returned by `findStartDate` falls on a listed weekday and is the
earliest such date on or after the reference: no day from the reference up to
the day before it has a listed weekday. -/
theorem findStartDate_earliest_of_sorted (ref : Time) (codes : List String) (d : Time)
    (hcodes : ∀ c ∈ codes, c ∈ weekdayCodes) (hsorted : mondayToSunday codes)
    (h : findStartDate ref codes = .ok d) :
    getWeekDay d ∈ codes ∧
    ∃ k : Int, 0 ≤ k ∧ d = ref.AddDate k ∧
      ∀ j : Int, 0 ≤ j → j < k → getWeekDay (ref.AddDate j) ∉ codes := by
  obtain ⟨pre, c, post, hc, hpre, hc0, hd⟩ := findStartDate.loop_ok ref _ codes d h
  have hr1 := mapIndexInt_weekdayMap_range c
  have hr2 := mapIndexInt_weekdayMap_range (getWeekDay ref)
  have hcmem : c ∈ codes := by simp [hc]
  refine ⟨?_, _, hc0, hd, ?_⟩
  · have hoff := weekdayOffset_AddDate ref
      (mapIndexInt findStartDate.weekdayMap c - mapIndexInt findStartDate.weekdayMap (getWeekDay ref))
    rw [← hd] at hoff
    have hmemd : getWeekDay d ∈ weekdayCodes := by
      rw [getWeekDay_eq_specWeekdayCode]; exact specWeekdayCode_mem d
    have : getWeekDay d = c := weekdayOffset_injective hmemd (hcodes c hcmem) (by omega)
    rw [this]; exact hcmem
  · intro j hj0 hjk hx
    have hoff := weekdayOffset_AddDate ref j
    have hxr := codeRank_of_mem (hcodes _ hx)
    have hcr := codeRank_of_mem (hcodes _ hcmem)
    rw [hc] at hx
    rcases List.mem_append.mp hx with hx | hx
    · have := hpre _ hx; omega
    · rcases List.mem_cons.mp hx with hx | hx
      · rw [hx] at hoff; omega
      · unfold mondayToSunday at hsorted
        rw [hc, List.pairwise_append] at hsorted
        have := List.rel_of_pairwise_cons hsorted.2.1 hx
        omega

/-- Witness of C10: from Thursday 1970-01-01 the sorted list MO, FR, SU gives
the Friday of the next day. -/
theorem findStartDate_earliest_of_sorted_witness :
    (∀ c ∈ ["MO", "FR", "SU"], c ∈ weekdayCodes) ∧ mondayToSunday ["MO", "FR", "SU"] ∧
    findStartDate ⟨0⟩ ["MO", "FR", "SU"] = .ok ⟨86400⟩ ∧
    getWeekDay ⟨86400⟩ ∈ ["MO", "FR", "SU"] :=
  ⟨by decide, by decide, by decide,
    (findStartDate_earliest_of_sorted ⟨0⟩ ["MO", "FR", "SU"] ⟨86400⟩
      (by decide) (by decide) (by decide)).1⟩

/-! ## Theorems: text -/

theorem isSpace_comma : isSpace ',' = false := by decide

theorem trimLeft_append_cons (a b : List Char) (x : Char) (hx : isSpace x = false) :
    trimLeft (a ++ x :: b) = trimLeft a ++ x :: b := by
  induction a with
  | nil => simp [trimLeft, List.dropWhile, hx]
  | cons c a ih =>
    unfold trimLeft at ih ⊢
    by_cases hc : isSpace c = true
    · simp [List.dropWhile, hc, ih]
    · simp [List.dropWhile, hc]

theorem trimLeft_idem (l : List Char) : trimLeft (trimLeft l) = trimLeft l := by
  induction l with
  | nil => rfl
  | cons c l ih =>
    unfold trimLeft at ih ⊢
    by_cases hc : isSpace c = true
    · simp [List.dropWhile, hc, ih]
    · simp [List.dropWhile, hc]

theorem trimRight_cons_of_not_space (x : Char) (b : List Char) (hx : isSpace x = false) :
    trimRight (x :: b) = x :: trimRight b := by
  rw [trimRight]
  cases h : trimRight b <;> simp [hx]

theorem trimRight_cons_of_ne_nil (c : Char) (b : List Char) (h : trimRight b ≠ []) :
    trimRight (c :: b) = c :: trimRight b := by
  rw [trimRight]
  cases h2 : trimRight b with
  | nil => exact absurd h2 h
  | cons r rs => rfl

theorem trimRight_append_cons (a b : List Char) (x : Char) (hx : isSpace x = false) :
    trimRight (a ++ x :: b) = a ++ x :: trimRight b := by
  induction a with
  | nil => exact trimRight_cons_of_not_space x b hx
  | cons c a ih =>
    rw [List.cons_append, trimRight_cons_of_ne_nil, ih, List.cons_append]
    rw [ih]; simp

/-- A text is its right-trimmed part followed by white space only. -/
theorem trimRight_append_spaces (l : List Char) :
    ∃ sp, l = trimRight l ++ sp ∧ ∀ c ∈ sp, isSpace c = true := by
  induction l with
  | nil => exact ⟨[], rfl, by simp⟩
  | cons c l ih =>
    obtain ⟨sp, hl, hsp⟩ := ih
    cases h : trimRight l with
    | nil =>
      by_cases hc : isSpace c = true
      · refine ⟨c :: l, by simp [trimRight, h, hc], ?_⟩
        rw [h] at hl
        intro y hy
        rcases List.mem_cons.mp hy with rfl | hy
        · exact hc
        · rw [hl] at hy; exact hsp y hy
      · refine ⟨sp, ?_, hsp⟩
        rw [h] at hl
        simp [trimRight, h, hc]
        exact hl
    | cons r rs =>
      refine ⟨sp, ?_, hsp⟩
      rw [trimRight_cons_of_ne_nil c l (by simp [h]), List.cons_append, ← hl]

theorem trimLeft_trimRight (l : List Char) : trimLeft (trimRight l) = trimRight (trimLeft l) := by
  induction l with
  | nil => rfl
  | cons c l ih =>
    by_cases hc : isSpace c = true
    · have h1 : trimLeft (c :: l) = trimLeft l := by simp [trimLeft, List.dropWhile, hc]
      rw [h1, ← ih]
      cases h : trimRight l with
      | nil => simp [trimRight, h, hc, trimLeft]
      | cons r rs =>
        rw [trimRight_cons_of_ne_nil c l (by simp [h]), h]
        simp [trimLeft, List.dropWhile, hc]
    · have hc2 : isSpace c = false := by simpa using hc
      have h1 : trimLeft (c :: l) = c :: l := by simp [trimLeft, List.dropWhile, hc]
      rw [h1, trimRight_cons_of_not_space c l hc2]
      simp [trimLeft, List.dropWhile, hc]

theorem trimLeft_uptoComma (l : List Char) : trimLeft (uptoComma l) = uptoComma (trimLeft l) := by
  induction l with
  | nil => rfl
  | cons c l ih =>
    unfold trimLeft at ih ⊢
    by_cases hc : isSpace c = true
    · have hne : c ≠ ',' := by rintro rfl; simp [isSpace_comma] at hc
      simp [uptoComma, List.dropWhile, hc, hne, ih]
    · by_cases hcomma : c = ','
      · simp [uptoComma, List.dropWhile, hc, hcomma]
      · simp [uptoComma, List.dropWhile, hc, hcomma]

theorem splitComma_head (l : List Char) : ∃ tail, splitComma l = uptoComma l :: tail := by
  induction l with
  | nil => exact ⟨[], rfl⟩
  | cons c l ih =>
    obtain ⟨tail, ht⟩ := ih
    by_cases hc : c = ','
    · exact ⟨splitComma l, by simp [splitComma, uptoComma, hc]⟩
    · exact ⟨tail, by simp [splitComma, uptoComma, hc, ht]⟩

theorem splitComma_append_comma (r ts : List Char) (hr : ',' ∉ r) :
    splitComma (r ++ ',' :: ts) = r :: splitComma ts := by
  induction r with
  | nil => simp [splitComma]
  | cons c r ih =>
    have hc : c ≠ ',' := fun h => hr (by simp [h])
    have := ih (fun h => hr (List.mem_cons_of_mem _ h))
    simp [splitComma, hc, this]

/-- A text is its part up to the first comma, followed by nothing or by a
comma and more text. -/
theorem uptoComma_append (l : List Char) :
    l = uptoComma l ∨ ∃ rest, l = uptoComma l ++ ',' :: rest := by
  induction l with
  | nil => left; rfl
  | cons c l ih =>
    by_cases hc : c = ','
    · right; exact ⟨l, by simp [uptoComma, hc]⟩
    · rcases ih with h | ⟨rest, h⟩
      · left
        have : uptoComma (c :: l) = c :: uptoComma l := by simp [uptoComma, hc]
        rw [this, ← h]
      · right
        refine ⟨rest, ?_⟩
        have : uptoComma (c :: l) = c :: uptoComma l := by simp [uptoComma, hc]
        rw [this, List.cons_append, ← h]

/-! ## Theorems: bytes -/

theorem utf8Bytes_append (a b : List Char) : utf8Bytes (a ++ b) = utf8Bytes a ++ utf8Bytes b := by
  induction a with
  | nil => rfl
  | cons c a ih => simp [utf8Bytes, ih]

/-- A byte below 128 in the encoding of a code point is the code point. -/
theorem utf8EncodeChar_ascii (c : Char) (b : Nat) (hb : b ∈ utf8EncodeChar c) (h : b < 128) :
    b = c.toNat := by
  unfold utf8EncodeChar at hb
  simp only at hb
  split at hb
  · simpa using hb
  · split at hb
    · simp at hb; omega
    · split at hb
      · simp at hb; omega
      · simp at hb; omega

theorem not_isSpace_of_digit (c : Char) (h : 48 ≤ c.toNat ∧ c.toNat ≤ 57) : isSpace c = false := by
  unfold isSpace
  simp only [decide_eq_false_iff_not]
  omega

/-- No byte of the encoding of white space is an ASCII digit. -/
theorem not_digit_of_mem_spaces (sp : List Char) (hsp : ∀ c ∈ sp, isSpace c = true)
    (b : Nat) (hb : b ∈ utf8Bytes sp) : isDigitByte b = false := by
  induction sp with
  | nil => simp [utf8Bytes] at hb
  | cons c sp ih =>
    simp only [utf8Bytes, List.mem_append] at hb
    rcases hb with hb | hb
    · by_contra hd
      have hd : 48 ≤ b ∧ b ≤ 57 := by simpa [isDigitByte] using hd
      have hbc := utf8EncodeChar_ascii c b hb (by omega)
      have := not_isSpace_of_digit c (by omega)
      rw [hsp c (List.mem_cons_self _ _)] at this
      cases this
    · exact ih (fun x hx => hsp x (List.mem_cons_of_mem _ hx)) hb

theorem utf8Bytes_comma_cons (rest : List Char) :
    utf8Bytes (',' :: rest) = 44 :: utf8Bytes rest := rfl

/-- The bytes of a text are the bytes of its trimmed part up to the first
comma, then bytes that are no digits, then nothing or a comma and more. -/
theorem utf8Bytes_uptoComma (core : List Char) :
    ∃ S D, utf8Bytes core = utf8Bytes (trimRight (uptoComma core)) ++ S ++ D ∧
      (∀ b ∈ S, isDigitByte b = false) ∧ (D = [] ∨ ∃ D', D = 44 :: D') := by
  obtain ⟨sp, hX, hsp⟩ := trimRight_append_spaces (uptoComma core)
  refine ⟨utf8Bytes sp, ?_⟩
  rcases uptoComma_append core with h | ⟨rest, h⟩
  · refine ⟨[], ?_, not_digit_of_mem_spaces sp hsp, Or.inl rfl⟩
    rw [List.append_nil, ← utf8Bytes_append, ← hX, ← h]
  · refine ⟨utf8Bytes (',' :: rest), ?_, not_digit_of_mem_spaces sp hsp,
      Or.inr ⟨_, utf8Bytes_comma_cons rest⟩⟩
    rw [← utf8Bytes_append, ← hX, ← utf8Bytes_append, ← h]

theorem mem_of_take_append_cons (A C : List Nat) (c : Nat) :
    ∀ (n : Nat) (L : List Nat), (A ++ c :: C).take n = L → A.length < n → c ∈ L := by
  induction A with
  | nil =>
    intro n L h hn
    cases n with
    | zero => simp at hn
    | succ n => simp at h; rw [← h]; simp
  | cons a A ih =>
    intro n L h hn
    cases n with
    | zero => simp at hn
    | succ n =>
      simp only [List.cons_append, List.take_succ_cons] at h
      rw [← h]
      exact List.mem_cons_of_mem _ (ih n _ rfl (by simpa using hn))

theorem getLast_of_take_append (A C : List Nat) :
    ∀ (n : Nat) (L : List Nat), (A ++ C).take n = L → A.length < n → L.length = n →
      ∃ c ∈ C, L.getLast? = some c := by
  induction A with
  | nil =>
    intro n L h hn hL
    have hne : L ≠ [] := by
      intro h0; rw [h0] at hL; simp at hL; omega
    refine ⟨L.getLast hne, ?_, List.getLast?_eq_getLast _ hne⟩
    have hmem : ∀ x ∈ L, x ∈ C := by
      intro x hx
      rw [← h] at hx
      exact List.mem_of_mem_take (by simpa using hx)
    exact hmem _ (List.getLast_mem hne)
  | cons a A ih =>
    intro n L h hn hL
    cases n with
    | zero => simp at hn
    | succ n =>
      simp only [List.cons_append, List.take_succ_cons] at h
      subst h
      simp only [List.length_cons, Nat.add_right_cancel_iff] at hL
      obtain ⟨c, hc, hlast⟩ := ih n _ rfl (by simpa using hn) hL
      refine ⟨c, hc, ?_⟩
      have hne : List.take n (A ++ C) ≠ [] := by
        intro h0; rw [h0] at hlast; simp at hlast
      cases hT : List.take n (A ++ C) with
      | nil => exact absurd hT hne
      | cons t ts =>
        rw [hT] at hlast
        rw [List.getLast?_cons_cons]
        exact hlast

/-! ## Theorems: the cell parser -/

theorem parseTime_two (a b : Nat) :
    parseTime [a, b] =
      if isDigitByte a = true ∧ isDigitByte b = true then .ok (decimalValue [a, b])
      else .error .fatalParseUint := by
  unfold parseTime ParseUint
  simp only [List.foldl, ParseUint.step, decimalValue]
  by_cases ha : isDigitByte a = true
  · by_cases hb : isDigitByte b = true
    · have ha2 : 48 ≤ a ∧ a ≤ 57 := by simpa [isDigitByte] using ha
      have hb2 : 48 ≤ b ∧ b ≤ 57 := by simpa [isDigitByte] using hb
      have h1 : 0 * 10 + (a - 48) < 2 ^ 64 := by omega
      have h2 : (0 * 10 + (a - 48)) * 10 + (b - 48) < 2 ^ 64 := by omega
      have h3 : (0 * 10 + (a - 48)) * 10 + (b - 48) < 2 ^ 63 := by omega
      simp only [ha, hb, h1, h2, if_true, and_self, uint64ToInt, h3]
      simp
      omega
    · have ha2 : 48 ≤ a ∧ a ≤ 57 := by simpa [isDigitByte] using ha
      have h1 : a - 48 < 18446744073709551616 := by omega
      simp [ha, hb, h1]
  · simp [ha]

theorem field3_split (r ts : String) (hr : ',' ∉ r.data) :
    ∃ more, Split (TrimSpace (r ++ "," ++ ts)) =
      ⟨trimLeft r.data⟩ :: ⟨uptoComma (trimRight ts.data)⟩ :: more := by
  have hdata : (r ++ "," ++ ts).data = r.data ++ ',' :: ts.data := by
    simp [String.data_append]
  have hl : ',' ∉ trimLeft r.data := fun h =>
    hr ((List.dropWhile_sublist isSpace).subset h)
  obtain ⟨tail, ht⟩ := splitComma_head (trimRight ts.data)
  refine ⟨tail.map String.mk, ?_⟩
  unfold Split TrimSpace
  simp only [hdata]
  rw [trimLeft_append_cons _ _ _ isSpace_comma, trimRight_append_cons _ _ _ isSpace_comma,
    splitComma_append_comma _ _ hl, ht]
  rfl

theorem TrimSpace_trimLeft (r : String) : TrimSpace ⟨trimLeft r.data⟩ = TrimSpace r := by
  unfold TrimSpace
  simp only [trimLeft_idem]

theorem TrimSpace_uptoComma_trimRight (ts : String) :
    (TrimSpace ⟨uptoComma (trimRight ts.data)⟩).data =
      trimRight (uptoComma (TrimSpace ts).data) := by
  unfold TrimSpace
  simp only [trimLeft_uptoComma, trimLeft_trimRight]

/-- When the bytes of the trimmed text after the first comma start with
eleven bytes of which the last is a digit and none is a comma, the trimmed
second piece starts with the same eleven bytes. -/
theorem take_eleven_of_no_comma (core : List Char) (L : List Nat) (last : Nat)
    (hL : (utf8Bytes core).take 11 = L) (hlen : L.length = 11)
    (hcomma : 44 ∉ L) (hlast : L.getLast? = some last) (hdigit : isDigitByte last = true) :
    (utf8Bytes (trimRight (uptoComma core))).take 11 = L := by
  obtain ⟨S, D, hB, hS, hD⟩ := utf8Bytes_uptoComma core
  rw [hB] at hL
  have h1 : 11 ≤ (utf8Bytes (trimRight (uptoComma core)) ++ S).length := by
    by_contra hlt
    rcases hD with rfl | ⟨D', rfl⟩
    · rw [List.append_nil] at hL
      rw [← hL, List.length_take] at hlen
      omega
    · exact hcomma (mem_of_take_append_cons _ D' 44 11 L hL (by omega))
  rw [List.take_append_of_le_length h1] at hL
  have h2 : 11 ≤ (utf8Bytes (trimRight (uptoComma core))).length := by
    by_contra hlt
    obtain ⟨c, hc, hc2⟩ := getLast_of_take_append _ S 11 L hL (by omega) hlen
    rw [hlast] at hc2
    cases hc2
    rw [hS _ hc] at hdigit
    cases hdigit
  rw [List.take_append_of_le_length h2] at hL
  exact hL

theorem spanLoop_of_three_le (k : Nat) (hk : 3 ≤ k) (more : List String) (data : Course) :
    spanLoop k more data = .ok data := by
  induction more generalizing k with
  | nil => rfl
  | cons text more ih =>
    have h0 : k ≠ 0 := by omega
    have h1 : k ≠ 1 := by omega
    have h2 : k ≠ 2 := by omega
    simp only [spanLoop, spanStep, h0, h1, h2, if_false]
    exact ih (k + 1) (by omega)

theorem parseEntry_three (title id f3 : String) (more : List String) :
    parseEntry (title :: id :: f3 :: more) =
      parseField3 (TrimSpace f3) ⟨TrimSpace title, TrimSpace id, "", 0, 0, 0, 0⟩ := by
  unfold parseEntry
  simp only [spanLoop, spanStep, Course.zero]
  simp only [if_true, if_false, Nat.zero_ne_one, OfNat.zero_ne_ofNat, OfNat.one_ne_ofNat,
    Nat.reduceAdd, Nat.reduceEqDiff, Nat.succ_ne_self]
  split
  · next h => rw [h]
  · next h => rw [spanLoop_of_three_le 3 (by omega), h]

theorem parseTimes_eleven (b0 b1 b2 b3 b4 b5 b6 b7 b8 b9 b10 : Nat) (data : Course) :
    parseTimes [b0, b1, b2, b3, b4, b5, b6, b7, b8, b9, b10] data =
      if (isDigitByte b0 = true ∧ isDigitByte b1 = true) ∧
          (isDigitByte b2 = true ∧ isDigitByte b3 = true) ∧
          (isDigitByte b7 = true ∧ isDigitByte b8 = true) ∧
          (isDigitByte b9 = true ∧ isDigitByte b10 = true) then
        .ok { data with
          startHour := decimalValue [b0, b1], startMinute := decimalValue [b2, b3],
          endHour := decimalValue [b7, b8], endMinute := decimalValue [b9, b10] }
      else .error .fatalParseUint := by
  unfold parseTimes
  simp only [slice, List.take, List.drop, parseTime_two]
  by_cases c1 : isDigitByte b0 = true ∧ isDigitByte b1 = true
  · by_cases c2 : isDigitByte b2 = true ∧ isDigitByte b3 = true
    · by_cases c3 : isDigitByte b7 = true ∧ isDigitByte b8 = true
      · by_cases c4 : isDigitByte b9 = true ∧ isDigitByte b10 = true
        · simp only [c1, c2, c3, c4, if_true, and_self]
        · simp only [c1, c2, c3, c4, if_true, if_false, and_self, and_false]
      · simp only [c1, c2, c3, if_true, if_false, and_self, and_false, false_and]
    · simp only [c1, c2, if_true, if_false, and_self, and_false, false_and]
  · simp only [c1, if_false, false_and]

theorem parseField3_of_bytes (s s0 s1 : String) (more : List String) (data : Course)
    (hsplit : Split s = s0 :: s1 :: more) (b0 b1 b2 b3 b4 b5 b6 b7 b8 b9 b10 : Nat)
    (h11 : (utf8Encode (TrimSpace s1)).take 11 = [b0, b1, b2, b3, b4, b5, b6, b7, b8, b9, b10]) :
    parseField3 s data =
      parseTimes [b0, b1, b2, b3, b4, b5, b6, b7, b8, b9, b10]
        { data with room := TrimSpace s0 } := by
  have hlen : ¬ (utf8Encode (TrimSpace s1)).length < 11 := by
    have := congrArg List.length h11
    simp only [List.length_take, List.length_cons, List.length_nil] at this
    omega
  unfold parseField3
  simp only [hsplit, hlen, if_false, slice, List.drop_zero, h11]

/-- C3 (amended): when the third span's text is `r`, a comma and `ts`, with no
comma in `r`, and the bytes of the trimmed `ts` start with four digits, three
bytes none of which is a comma, and four digits, the cell parser yields the
record whose room is the trimmed `r` and whose hours and minutes are the
decimal values of the digit pairs. -/
theorem parseEntry_time_fields (title id f3 r ts : String) (more : List String)
    (h1 h2 m1 m2 x1 x2 x3 h3 h4 m3 m4 : Nat)
    (hf : f3 = r ++ "," ++ ts) (hr : ',' ∉ r.data)
    (hbytes : (utf8Encode (TrimSpace ts)).take 11 =
      [h1, h2, m1, m2, x1, x2, x3, h3, h4, m3, m4])
    (hstart : isDigitByte h1 = true ∧ isDigitByte h2 = true ∧
      isDigitByte m1 = true ∧ isDigitByte m2 = true)
    (hend : isDigitByte h3 = true ∧ isDigitByte h4 = true ∧
      isDigitByte m3 = true ∧ isDigitByte m4 = true)
    (hsep : x1 ≠ 44 ∧ x2 ≠ 44 ∧ x3 ≠ 44) :
    parseEntry (title :: id :: f3 :: more) =
      .ok ⟨TrimSpace title, TrimSpace id, TrimSpace r,
        decimalValue [h1, h2], decimalValue [m1, m2],
        decimalValue [h3, h4], decimalValue [m3, m4]⟩ := by
  obtain ⟨tail, hsplit⟩ := field3_split r ts hr
  have hne : ∀ b, isDigitByte b = true → b ≠ 44 := by
    intro b hb h44; subst h44; revert hb; decide
  have hcomma : 44 ∉ [h1, h2, m1, m2, x1, x2, x3, h3, h4, m3, m4] := by
    simp only [List.mem_cons, List.mem_singleton, List.not_mem_nil, or_false, not_or]
    exact ⟨(hne _ hstart.1).symm, (hne _ hstart.2.1).symm, (hne _ hstart.2.2.1).symm,
      (hne _ hstart.2.2.2).symm, hsep.1.symm, hsep.2.1.symm, hsep.2.2.symm,
      (hne _ hend.1).symm, (hne _ hend.2.1).symm, (hne _ hend.2.2.1).symm,
      (hne _ hend.2.2.2).symm⟩
  have h11 : (utf8Encode (TrimSpace ⟨uptoComma (trimRight ts.data)⟩)).take 11 =
      [h1, h2, m1, m2, x1, x2, x3, h3, h4, m3, m4] := by
    unfold utf8Encode
    rw [TrimSpace_uptoComma_trimRight]
    exact take_eleven_of_no_comma _ _ m4 hbytes rfl hcomma rfl hend.2.2.2
  rw [parseEntry_three, hf,
    parseField3_of_bytes _ _ _ tail _ hsplit _ _ _ _ _ _ _ _ _ _ _ h11]
  simp only [parseTimes_eleven, hstart, hend, and_self, if_true, TrimSpace_trimLeft]

/-- Witness of C3 (amended): an entry whose time has a hyphen between two
spaces as separator bytes. -/
theorem parseEntry_time_fields_witness :
    parseEntry [" Intro to Systems", "CS101 ", " Room 4 , 0900 - 1030 (Lec)"] =
      .ok ⟨"Intro to Systems", "CS101", "Room 4", 9, 0, 10, 30⟩ :=
  parseEntry_time_fields " Intro to Systems" "CS101 " " Room 4 , 0900 - 1030 (Lec)"
    " Room 4 " " 0900 - 1030 (Lec)" [] 48 57 48 48 32 45 32 49 48 51 48
    (by decide) (by decide) (by decide) (by decide) (by decide) (by decide)

/-- Counterexample to C3: the text `R,0900,--1030` is a room, a comma and a
time whose eleven bytes are four digits, the separator bytes `,--` and four
digits; the cell parser takes the piece between the first two commas, `0900`,
as the time and ends in the slice-bounds panic. -/
theorem parseEntry_comma_separator :
    ("R,0900,--1030" : String) = "R" ++ "," ++ "0900,--1030" ∧
    (utf8Encode (TrimSpace "0900,--1030")).take 11 =
      [48, 57, 48, 48, 44, 45, 45, 49, 48, 51, 48] ∧
    parseEntry ["A", "B", "R,0900,--1030"] = .error .sliceBoundsOutOfRange := by
  decide

theorem parseField3_short (s s0 s1 : String) (more : List String) (data : Course)
    (hsplit : Split s = s0 :: s1 :: more) (hlen : (utf8Encode (TrimSpace s1)).length < 11) :
    parseField3 s data = .error .sliceBoundsOutOfRange := by
  unfold parseField3
  simp only [hsplit, hlen, if_true]

theorem eleven_of_length (T : List Nat) (h : 11 ≤ T.length) :
    ∃ b0 b1 b2 b3 b4 b5 b6 b7 b8 b9 b10 rest,
      T = b0 :: b1 :: b2 :: b3 :: b4 :: b5 :: b6 :: b7 :: b8 :: b9 :: b10 :: rest := by
  rcases T with _ | ⟨b0, _ | ⟨b1, _ | ⟨b2, _ | ⟨b3, _ | ⟨b4, _ | ⟨b5, _ | ⟨b6, _ | ⟨b7,
    _ | ⟨b8, _ | ⟨b9, _ | ⟨b10, rest⟩⟩⟩⟩⟩⟩⟩⟩⟩⟩⟩ <;> simp at h
  exact ⟨b0, b1, b2, b3, b4, b5, b6, b7, b8, b9, b10, rest, rfl⟩

/-- The cell parser ends in a failure when the trimmed text after the first
comma is shorter than eleven bytes or has a byte that is no digit at one of the
eight digit positions. -/
theorem parseEntry_error_of_bad_time (title id f3 r ts : String) (more : List String)
    (hf : f3 = r ++ "," ++ ts) (hr : ',' ∉ r.data)
    (hbad : (utf8Encode (TrimSpace ts)).length < 11 ∨
      ∃ i b, (i < 4 ∨ (7 ≤ i ∧ i < 11)) ∧
        (utf8Encode (TrimSpace ts))[i]? = some b ∧ isDigitByte b = false) :
    ∃ e, parseEntry (title :: id :: f3 :: more) = .error e := by
  obtain ⟨tail, hsplit⟩ := field3_split r ts hr
  obtain ⟨S, D, hB, -, -⟩ := utf8Bytes_uptoComma (TrimSpace ts).data
  have hT : utf8Encode (TrimSpace ⟨uptoComma (trimRight ts.data)⟩) =
      utf8Bytes (trimRight (uptoComma (TrimSpace ts).data)) := by
    unfold utf8Encode
    rw [TrimSpace_uptoComma_trimRight]
  rw [parseEntry_three, hf]
  by_cases hlen : (utf8Encode (TrimSpace ⟨uptoComma (trimRight ts.data)⟩)).length < 11
  · exact ⟨_, parseField3_short _ _ _ tail _ hsplit hlen⟩
  · obtain ⟨b0, b1, b2, b3, b4, b5, b6, b7, b8, b9, b10, rest, hTeq⟩ :=
      eleven_of_length (utf8Encode (TrimSpace ⟨uptoComma (trimRight ts.data)⟩)) (by omega)
    have h11 : (utf8Encode (TrimSpace ⟨uptoComma (trimRight ts.data)⟩)).take 11 =
        [b0, b1, b2, b3, b4, b5, b6, b7, b8, b9, b10] := by
      rw [hTeq]; rfl
    rw [parseField3_of_bytes _ _ _ tail _ hsplit _ _ _ _ _ _ _ _ _ _ _ h11]
    have hBeq : utf8Encode (TrimSpace ts) =
        b0 :: b1 :: b2 :: b3 :: b4 :: b5 :: b6 :: b7 :: b8 :: b9 :: b10 :: (rest ++ S ++ D) := by
      unfold utf8Encode
      rw [hB, ← hT, hTeq]
      simp
    rcases hbad with hshort | ⟨i, b, hi, hb, hnd⟩
    · rw [hBeq] at hshort
      simp at hshort
      omega
    · rw [hBeq] at hb
      have hi11 : i < 11 := by omega
      rw [parseTimes_eleven]
      refine ⟨.fatalParseUint, if_neg ?_⟩
      rintro ⟨⟨d0, d1⟩, ⟨d2, d3⟩, ⟨d7, d8⟩, ⟨d9, d10⟩⟩
      interval_cases i <;> simp at hb <;> first
        | omega
        | (subst hb
           simp only [hnd, Bool.false_eq_true] at d0 d1 d2 d3 d7 d8 d9 d10)

/-! ## Theorems: the table walker -/

theorem walkEntries_error (i : Nat) (cell : List (List String))
    (h : ∃ entry ∈ cell, ∃ err, parseEntry entry = .error err) :
    ∀ courses, ∃ err, walkEntries i cell courses = .error err := by
  induction cell with
  | nil => simp at h
  | cons e cell ih =>
    intro courses
    unfold walkEntries
    cases hp : parseEntry e with
    | error err => exact ⟨err, rfl⟩
    | ok data =>
      obtain ⟨entry, hmem, err, herr⟩ := h
      rcases List.mem_cons.mp hmem with rfl | hmem
      · rw [hp] at herr; cases herr
      · exact ih ⟨entry, hmem, err, herr⟩ _

theorem walkCells_error (table : List (List (List String)))
    (h : ∃ cell ∈ table, ∃ entry ∈ cell, ∃ err, parseEntry entry = .error err) :
    ∀ i courses, ∃ err, walkCells i table courses = .error err := by
  induction table with
  | nil => simp at h
  | cons cell table ih =>
    intro i courses
    unfold walkCells
    cases hw : walkEntries i cell courses with
    | error err => exact ⟨err, rfl⟩
    | ok courses2 =>
      obtain ⟨cell2, hmem, hentry⟩ := h
      rcases List.mem_cons.mp hmem with rfl | hmem
      · obtain ⟨err, herr⟩ := walkEntries_error i cell2 hentry courses
        rw [hw] at herr; cases herr
      · exact ih ⟨cell2, hmem, hentry⟩ _ _

theorem run_error_of_walk_error (lines : List String) (table : List (List (List String)))
    (h : ∃ err, walk table = .error err) : ∃ err, run lines table = .error err := by
  obtain ⟨err, herr⟩ := h
  unfold run
  cases readHeader lines with
  | error e => exact ⟨e, rfl⟩
  | ok w => exact ⟨err, by simp only [herr]⟩

/-- C4: when the third span's text is `r`, a comma and `ts`, with no comma in
`r`, and the trimmed `ts` has fewer than eleven bytes or a byte that is no
ASCII digit at one of the positions 0 to 3 or 7 to 10, the cell parser ends in
a failure: it returns no record, and neither the walker nor the run returns a
result for a table that holds the entry. -/
theorem parseEntry_malformed_time (title id f3 r ts : String) (more : List String)
    (hf : f3 = r ++ "," ++ ts) (hr : ',' ∉ r.data)
    (hbad : (utf8Encode (TrimSpace ts)).length < 11 ∨
      ∃ i b, (i < 4 ∨ (7 ≤ i ∧ i < 11)) ∧
        (utf8Encode (TrimSpace ts))[i]? = some b ∧ isDigitByte b = false) :
    (∃ err, parseEntry (title :: id :: f3 :: more) = .error err) ∧
    ∀ (lines : List String) (table : List (List (List String))),
      (∃ cell ∈ table, (title :: id :: f3 :: more) ∈ cell) →
        (∃ err, walk table = .error err) ∧ (∃ err, run lines table = .error err) := by
  have hp := parseEntry_error_of_bad_time title id f3 r ts more hf hr hbad
  refine ⟨hp, ?_⟩
  rintro lines table ⟨cell, hcell, hentry⟩
  have hw : ∃ err, walk table = .error err :=
    walkCells_error table ⟨cell, hcell, _, hentry, hp⟩ 0 []
  exact ⟨hw, run_error_of_walk_error lines table hw⟩

/-- Witness of C4: the short time `0900-10` and the time `09x0 - 1030` with a
letter at a digit position. -/
theorem parseEntry_malformed_time_witness :
    parseEntry ["Intro to Systems", "CS101", "Room 4, 0900-10"] =
      .error .sliceBoundsOutOfRange ∧
    parseEntry ["Intro to Systems", "CS101", "Room 4, 09x0 - 1030"] =
      .error .fatalParseUint ∧
    (∃ err, parseEntry ["Intro to Systems", "CS101", "Room 4, 0900-10"] = .error err) ∧
    (∃ err, walk [[], [["Intro to Systems", "CS101", "Room 4, 09x0 - 1030"]]] = .error err) :=
  ⟨by decide, by decide,
    (parseEntry_malformed_time "Intro to Systems" "CS101" "Room 4, 0900-10" "Room 4" " 0900-10" []
      (by decide) (by decide) (Or.inl (by decide))).1,
    ((parseEntry_malformed_time "Intro to Systems" "CS101" "Room 4, 09x0 - 1030" "Room 4"
      " 09x0 - 1030" [] (by decide) (by decide)
      (Or.inr ⟨2, 120, by decide, by decide, by decide⟩)).2 []
      [[], [["Intro to Systems", "CS101", "Room 4, 09x0 - 1030"]]]
      ⟨_, List.mem_cons_of_mem _ (List.mem_singleton.mpr rfl), List.mem_singleton.mpr rfl⟩).1⟩

theorem keys_appendWeekday (courses : CourseMap) (data : Course) (code : String) :
    keys (appendWeekday courses data code) =
      if data ∈ keys courses then keys courses else keys courses ++ [data] := by
  induction courses with
  | nil => simp [appendWeekday, keys]
  | cons p courses ih =>
    obtain ⟨key, weekdays⟩ := p
    unfold keys at ih ⊢
    by_cases hk : key = data
    · simp [appendWeekday, hk]
    · have hk2 : ¬ data = key := fun h => hk h.symm
      simp only [appendWeekday, hk, if_false, List.map_cons, ih, List.mem_cons, hk2, false_or]
      split <;> simp

theorem weekdaysOf_appendWeekday (courses : CourseMap) (data c : Course) (code : String) :
    weekdaysOf (appendWeekday courses data code) c =
      if c = data then weekdaysOf courses c ++ [code] else weekdaysOf courses c := by
  induction courses with
  | nil =>
    by_cases hc : c = data
    · simp [appendWeekday, weekdaysOf, hc]
    · have hc2 : ¬ data = c := fun h => hc h.symm
      simp [appendWeekday, weekdaysOf, hc, hc2]
  | cons p courses ih =>
    obtain ⟨key, weekdays⟩ := p
    by_cases hk : key = data
    · subst hk
      by_cases hc : c = key
      · subst hc; simp [appendWeekday, weekdaysOf]
      · have hc2 : ¬ key = c := fun h => hc h.symm
        simp [appendWeekday, weekdaysOf, hc, hc2]
    · by_cases hkc : key = c
      · subst hkc
        simp [appendWeekday, weekdaysOf, hk]
      · simp [appendWeekday, weekdaysOf, hk, hkc, ih]

theorem nodup_keys_appendWeekday (courses : CourseMap) (data : Course) (code : String)
    (h : (keys courses).Nodup) : (keys (appendWeekday courses data code)).Nodup := by
  rw [keys_appendWeekday]
  split
  · exact h
  · next hn =>
    rw [List.nodup_append]
    refine ⟨h, List.nodup_singleton _, ?_⟩
    intro a ha hb
    rw [List.mem_singleton] at hb
    exact hn (hb ▸ ha)

theorem mem_keys_appendWeekday (courses : CourseMap) (data c : Course) (code : String) :
    c ∈ keys (appendWeekday courses data code) ↔ c ∈ keys courses ∨ c = data := by
  rw [keys_appendWeekday]
  split
  · next hm =>
    constructor
    · exact Or.inl
    · rintro (h | rfl)
      · exact h
      · exact hm
  · simp

/-- What the walk of one day cell does to the map. -/
theorem walkEntries_ok (i : Nat) (cell : List (List String)) :
    ∀ (courses result : CourseMap), walkEntries i cell courses = .ok result →
      ((keys courses).Nodup → (keys result).Nodup) ∧
      (∀ c, c ∈ keys result ↔ c ∈ keys courses ∨ ∃ entry ∈ cell, parseEntry entry = .ok c) ∧
      (∀ c, weekdaysOf result c = weekdaysOf courses c ++
        List.replicate (cell.countP (carries c)) (mapIndexString main.weekdayMap i)) ∧
      (∀ entry ∈ cell, ∃ c, parseEntry entry = .ok c) := by
  induction cell with
  | nil =>
    intro courses result h
    simp only [walkEntries, Except.ok.injEq] at h
    subst h
    simp
  | cons e cell ih =>
    intro courses result h
    unfold walkEntries at h
    cases hp : parseEntry e with
    | error err => rw [hp] at h; cases h
    | ok data =>
      rw [hp] at h
      obtain ⟨h1, h2, h3, h4⟩ := ih _ _ h
      refine ⟨fun hn => h1 (nodup_keys_appendWeekday _ _ _ hn), ?_, ?_, ?_⟩
      · intro c
        rw [h2, mem_keys_appendWeekday]
        constructor
        · rintro ((hc | rfl) | ⟨entry, hm, he⟩)
          · exact Or.inl hc
          · exact Or.inr ⟨e, List.mem_cons_self _ _, hp⟩
          · exact Or.inr ⟨entry, List.mem_cons_of_mem _ hm, he⟩
        · rintro (hc | ⟨entry, hm, he⟩)
          · exact Or.inl (Or.inl hc)
          · rcases List.mem_cons.mp hm with rfl | hm
            · rw [hp] at he; cases he; exact Or.inl (Or.inr rfl)
            · exact Or.inr ⟨entry, hm, he⟩
      · intro c
        rw [h3, weekdaysOf_appendWeekday, List.countP_cons]
        by_cases hc : c = data
        · subst hc
          have : carries c e = true := by simp [carries, hp]
          simp only [this, if_true, List.append_assoc]
          rw [Nat.add_comm, List.replicate_add]
          rfl
        · have : carries c e = false := by
            simp only [carries, hp, decide_eq_false_iff_not]
            intro heq; cases heq; exact hc rfl
          simp [this, hc]
      · intro entry hm
        rcases List.mem_cons.mp hm with rfl | hm
        · exact ⟨data, hp⟩
        · exact h4 entry hm

/-- What the walk of the day cells does to the map. -/
theorem walkCells_ok (table : List (List (List String))) :
    ∀ (i : Nat) (courses result : CourseMap), walkCells i table courses = .ok result →
      ((keys courses).Nodup → (keys result).Nodup) ∧
      (∀ c, c ∈ keys result ↔
        c ∈ keys courses ∨ ∃ cell ∈ table, ∃ entry ∈ cell, parseEntry entry = .ok c) ∧
      (∀ c, weekdaysOf result c = weekdaysOf courses c ++
        (occurrences i table c).map (mapIndexString main.weekdayMap)) ∧
      (∀ cell ∈ table, ∀ entry ∈ cell, ∃ c, parseEntry entry = .ok c) := by
  induction table with
  | nil =>
    intro i courses result h
    simp only [walkCells, Except.ok.injEq] at h
    subst h
    simp [occurrences]
  | cons cell table ih =>
    intro i courses result h
    unfold walkCells at h
    cases hw : walkEntries i cell courses with
    | error err => rw [hw] at h; cases h
    | ok mid =>
      rw [hw] at h
      obtain ⟨a1, a2, a3, a4⟩ := walkEntries_ok i cell _ _ hw
      obtain ⟨b1, b2, b3, b4⟩ := ih _ _ _ h
      refine ⟨fun hn => b1 (a1 hn), ?_, ?_, ?_⟩
      · intro c
        rw [b2, a2]
        constructor
        · rintro ((hc | ⟨entry, hm, he⟩) | ⟨cell2, hm2, entry, hm, he⟩)
          · exact Or.inl hc
          · exact Or.inr ⟨cell, List.mem_cons_self _ _, entry, hm, he⟩
          · exact Or.inr ⟨cell2, List.mem_cons_of_mem _ hm2, entry, hm, he⟩
        · rintro (hc | ⟨cell2, hm2, entry, hm, he⟩)
          · exact Or.inl (Or.inl hc)
          · rcases List.mem_cons.mp hm2 with rfl | hm2
            · exact Or.inl (Or.inr ⟨entry, hm, he⟩)
            · exact Or.inr ⟨cell2, hm2, entry, hm, he⟩
      · intro c
        rw [b3, a3]
        simp [occurrences]
      · intro cell2 hm2
        rcases List.mem_cons.mp hm2 with rfl | hm2
        · exact a4
        · exact b4 cell2 hm2

theorem walkEntries_total (i : Nat) (cell : List (List String))
    (h : ∀ entry ∈ cell, ∃ c, parseEntry entry = .ok c) :
    ∀ courses, ∃ result, walkEntries i cell courses = .ok result := by
  induction cell with
  | nil => intro courses; exact ⟨courses, rfl⟩
  | cons e cell ih =>
    intro courses
    obtain ⟨c, hc⟩ := h e (List.mem_cons_self _ _)
    unfold walkEntries
    rw [hc]
    exact ih (fun entry hm => h entry (List.mem_cons_of_mem _ hm)) _

theorem walkCells_total (table : List (List (List String)))
    (h : ∀ cell ∈ table, ∀ entry ∈ cell, ∃ c, parseEntry entry = .ok c) :
    ∀ i courses, ∃ result, walkCells i table courses = .ok result := by
  induction table with
  | nil => intro i courses; exact ⟨courses, rfl⟩
  | cons cell table ih =>
    intro i courses
    obtain ⟨mid, hmid⟩ := walkEntries_total i cell (h cell (List.mem_cons_self _ _)) courses
    unfold walkCells
    rw [hmid]
    exact ih (fun cell2 hm => h cell2 (List.mem_cons_of_mem _ hm)) _ _

theorem weekdaysOf_of_mem (courses : CourseMap) (h : (keys courses).Nodup)
    (c : Course) (ws : List String) (hm : (c, ws) ∈ courses) : weekdaysOf courses c = ws := by
  induction courses with
  | nil => simp at hm
  | cons p courses ih =>
    obtain ⟨key, weekdays⟩ := p
    simp only [keys, List.map_cons, List.nodup_cons] at h
    rcases List.mem_cons.mp hm with heq | hm
    · cases heq; simp [weekdaysOf]
    · have hne : key ≠ c := by
        rintro rfl
        exact h.1 (List.mem_map.mpr ⟨(key, ws), hm, rfl⟩)
      simp only [weekdaysOf, hne, if_false]
      exact ih h.2 hm

theorem length_occurrences (table : List (List (List String))) (c : Course) :
    ∀ i, (occurrences i table c).length = entryCount table c := by
  induction table with
  | nil => intro i; rfl
  | cons cell table ih =>
    intro i
    simp only [occurrences, List.length_append, List.length_replicate, ih, entryCount,
      List.map_cons, List.sum_cons]

theorem entryCount_eq_columnCount (table : List (List (List String))) (c : Course)
    (h : ∀ cell ∈ table, cell.countP (carries c) ≤ 1) :
    entryCount table c = columnCount table c := by
  induction table with
  | nil => rfl
  | cons cell table ih =>
    have h1 := h cell (List.mem_cons_self _ _)
    have ih2 := ih (fun cell2 hm => h cell2 (List.mem_cons_of_mem _ hm))
    unfold entryCount columnCount at ih2 ⊢
    simp only [List.map_cons, List.sum_cons, List.countP_cons, ih2]
    by_cases hany : cell.any (carries c) = true
    · have hpos : 0 < cell.countP (carries c) := by
        rw [List.countP_pos_iff]
        simpa using hany
      simp only [hany, if_true]
      omega
    · have hzero : cell.countP (carries c) = 0 := by
        rw [List.countP_eq_zero]
        simpa using hany
      simp [hany, hzero]

/-- C5 (amended): on a table whose entries are all well formed the walker
returns a map with exactly one key for every record that an entry of the table
carries and no other key, and the length of a key's WeekdaySet is the number of
entries of the table that carry the record, which is the number of day cells
holding it when no cell holds it twice. -/
theorem walk_one_key_per_record (table : List (List (List String)))
    (hwf : ∀ cell ∈ table, ∀ entry ∈ cell, (parseEntry entry).toBool = true) :
    ∃ m, walk table = .ok m ∧ (keys m).Nodup ∧
      (∀ c, c ∈ keys m ↔ ∃ cell ∈ table, ∃ entry ∈ cell, parseEntry entry = .ok c) ∧
      ∀ c ws, (c, ws) ∈ m →
        ws.length = entryCount table c ∧
        ((∀ cell ∈ table, cell.countP (carries c) ≤ 1) → ws.length = columnCount table c) := by
  have hwf2 : ∀ cell ∈ table, ∀ entry ∈ cell, ∃ c, parseEntry entry = .ok c := by
    intro cell hcell entry hentry
    have := hwf cell hcell entry hentry
    cases hp : parseEntry entry with
    | error err => rw [hp] at this; cases this
    | ok c => exact ⟨c, rfl⟩
  obtain ⟨m, hm⟩ := walkCells_total table hwf2 0 []
  obtain ⟨h1, h2, h3, -⟩ := walkCells_ok table 0 [] m hm
  have hnodup : (keys m).Nodup := h1 (by simp [keys])
  refine ⟨m, hm, hnodup, ?_, ?_⟩
  · intro c
    rw [h2]
    simp [keys]
  · intro c ws hmem
    have hws := weekdaysOf_of_mem m hnodup c ws hmem
    rw [h3] at hws
    have hlen : ws.length = entryCount table c := by
      rw [← hws]
      simp [weekdaysOf, length_occurrences]
    exact ⟨hlen, fun hone => hlen.trans (entryCount_eq_columnCount table c hone)⟩

/-- Witness of C5 (amended): one record under the Monday and Wednesday cells. -/
theorem walk_one_key_per_record_witness :
    ∃ m, walk [[], [["Intro to Systems", "CS101", "Room 4, 0900 - 1030"]], [],
        [["Intro to Systems", "CS101", "Room 4, 0900 - 1030"]]] = .ok m ∧ (keys m).Nodup :=
  let ⟨m, h1, h2, _⟩ := walk_one_key_per_record
    [[], [["Intro to Systems", "CS101", "Room 4, 0900 - 1030"]], [],
      [["Intro to Systems", "CS101", "Room 4, 0900 - 1030"]]] (by decide)
  ⟨m, h1, h2⟩

/-- Counterexample to C5: a table whose Monday cell holds the same entry twice.
One day cell contains the record, and its WeekdaySet has length two. -/
theorem walk_same_entry_twice :
    walk [[], [["A", "B", "R, 0900 - 1030"], ["A", "B", "R, 0900 - 1030"]]] =
      .ok [(⟨"A", "B", "R", 9, 0, 10, 30⟩, ["MO", "MO"])] ∧
    columnCount [[], [["A", "B", "R, 0900 - 1030"], ["A", "B", "R, 0900 - 1030"]]]
      ⟨"A", "B", "R", 9, 0, 10, 30⟩ = 1 ∧
    (["MO", "MO"] : List String).length ≠ 1 := by
  decide

/-- The `weekdayMap` of `main` at every index: the seven codes at 1 to 7, the
empty string elsewhere. -/
theorem mapIndexString_weekdayMap (i : Nat) :
    (1 ≤ i ∧ i ≤ 7 → weekdayCodes[i - 1]? = some (mapIndexString main.weekdayMap i)) ∧
    (¬ (1 ≤ i ∧ i ≤ 7) → mapIndexString main.weekdayMap i = "") := by
  constructor
  · rintro ⟨h1, h7⟩
    interval_cases i <;> rfl
  · intro h
    rcases i with _ | _ | _ | _ | _ | _ | _ | _ | i
    · rfl
    all_goals first | (exfalso; omega) | rfl

/-- C6 (amended): the WeekdaySet of a key is the list of the codes of the day
cells that hold the record, one for each entry in walking order, where a cell
with index 1 to 7 gives MO, TU, WE, TH, FR, SA, SU and a cell with any other
index gives the empty string; so every element of a WeekdaySet is one of the
seven codes or the empty string, and is one of the seven codes when the record
occurs in cells 1 to 7 only. -/
theorem walk_weekday_codes (table : List (List (List String))) (m : CourseMap)
    (c : Course) (ws : List String) (h : walk table = .ok m) (hc : (c, ws) ∈ m) :
    ws = (occurrences 0 table c).map (mapIndexString main.weekdayMap) ∧
    (∀ i, (1 ≤ i ∧ i ≤ 7 → weekdayCodes[i - 1]? = some (mapIndexString main.weekdayMap i)) ∧
      (¬ (1 ≤ i ∧ i ≤ 7) → mapIndexString main.weekdayMap i = "")) ∧
    (∀ x ∈ ws, x ∈ weekdayCodes ∨ x = "") ∧
    ((∀ i ∈ occurrences 0 table c, 1 ≤ i ∧ i ≤ 7) → ∀ x ∈ ws, x ∈ weekdayCodes) := by
  obtain ⟨h1, -, h3, -⟩ := walkCells_ok table 0 [] m h
  have hws := weekdaysOf_of_mem m (h1 (by simp [keys])) c ws hc
  rw [h3] at hws
  simp only [weekdaysOf, List.nil_append] at hws
  have hcode : ∀ i, 1 ≤ i ∧ i ≤ 7 → mapIndexString main.weekdayMap i ∈ weekdayCodes := by
    intro i hi
    exact List.getElem?_mem ((mapIndexString_weekdayMap i).1 hi)
  refine ⟨hws.symm, mapIndexString_weekdayMap, ?_, ?_⟩
  · intro x hx
    rw [← hws] at hx
    obtain ⟨i, -, rfl⟩ := List.mem_map.mp hx
    by_cases hi : 1 ≤ i ∧ i ≤ 7
    · exact Or.inl (hcode i hi)
    · exact Or.inr ((mapIndexString_weekdayMap i).2 hi)
  · intro hall x hx
    rw [← hws] at hx
    obtain ⟨i, hi, rfl⟩ := List.mem_map.mp hx
    exact hcode i (hall i hi)

/-- Witness of C6 (amended): a record under the cells with index 0 and 1. -/
theorem walk_weekday_codes_witness :
    walk [[["A", "B", "R, 0900 - 1030"]], [["A", "B", "R, 0900 - 1030"]]] =
      .ok [(⟨"A", "B", "R", 9, 0, 10, 30⟩, ["", "MO"])] ∧
    ∀ x ∈ ["", "MO"], x ∈ weekdayCodes ∨ x = "" :=
  ⟨by decide,
    (walk_weekday_codes [[["A", "B", "R, 0900 - 1030"]], [["A", "B", "R, 0900 - 1030"]]]
      [(⟨"A", "B", "R", 9, 0, 10, 30⟩, ["", "MO"])] ⟨"A", "B", "R", 9, 0, 10, 30⟩ ["", "MO"]
      (by decide) (by decide)).2.2.1⟩

/-- Counterexample to C6: an entry in the day cell with index 0, which has no
weekday mapping, is not skipped; it appends the empty string, which is none of
the seven codes, to the WeekdaySet of its record. -/
theorem walk_cell_zero_appends :
    walk [[["A", "B", "R, 0900 - 1030"]]] =
      .ok [(⟨"A", "B", "R", 9, 0, 10, 30⟩, [""])] ∧
    "" ∉ weekdayCodes := by
  decide

/-! ## Theorems: events -/

theorem intercalate_go (acc sep : String) (l : List String) :
    String.intercalate.go acc sep l = l.foldl (fun r a => r ++ sep ++ a) acc := by
  induction l generalizing acc with
  | nil => rfl
  | cons a l ih => simp [String.intercalate.go, ih]

theorem foldl_join_append (pre : String) (l : List String) (acc : String) :
    l.foldl (fun r a => r ++ "," ++ a) (pre ++ acc) =
      pre ++ l.foldl (fun r a => r ++ "," ++ a) acc := by
  induction l generalizing acc with
  | nil => rfl
  | cons a l ih =>
    simp only [List.foldl]
    rw [← ih]
    simp only [String.append_assoc]

/-- The result of `Join` is the list joined by commas. -/
theorem Join_eq_intercalate (l : List String) : Join l = String.intercalate "," l := by
  induction l with
  | nil => rfl
  | cons a l ih =>
    cases l with
    | nil => rfl
    | cons b l =>
      rw [Join, ih]
      simp only [String.intercalate, intercalate_go, List.foldl]
      rw [foldl_join_append]

theorem readHeader_four (l0 l1 l2 l3 : String) (rest : List String) (d0 d1 d2 d3 : Time)
    (h0 : parseInputDate l0 = .ok d0) (h1 : parseInputDate l1 = .ok d1)
    (h2 : parseInputDate l2 = .ok d2) (h3 : parseInputDate l3 = .ok d3) :
    readHeader (l0 :: l1 :: l2 :: l3 :: rest) =
      .ok ⟨d0, d1.AddDate (-1), d2.AddDate 1, d3⟩ := by
  simp [readHeader, headerLoop, headerStep, h0, h1, h2, h3, Except.map]

theorem createEvent_rrule (course : Course) (startTime endTime : Time) (weekdays : List String)
    (e : Event) (h : createEvent course startTime endTime weekdays = .ok e) :
    e.rrule = "FREQ=WEEKLY;WKST=SU;BYDAY=" ++ String.intercalate "," weekdays ++ ";UNTIL=" ++
      formatLocal endTime := by
  unfold createEvent at h
  cases hf : findStartDate startTime weekdays with
  | error err => rw [hf] at h; cases h
  | ok d =>
    rw [hf] at h
    simp only [Except.ok.injEq] at h
    rw [← h, Join_eq_intercalate]

/-- C7: with the four header lines parsed to the dates `d0`, `d1`, `d2`, `d3`,
whenever the emit loop produces both events for a record with WeekdaySet `w`,
the rule of the first is `FREQ=WEEKLY;WKST=SU;BYDAY=` followed by the codes of
`w` joined by commas, `;UNTIL=` and the rendering of the day before `d1`, and
the rule of the second is the same text with the rendering of `d3`. -/
theorem emitCourse_rrule (l0 l1 l2 l3 : String) (rest : List String) (d0 d1 d2 d3 : Time)
    (win : Window) (course : Course) (w : List String) (e1 e2 : Event)
    (h0 : parseInputDate l0 = .ok d0) (h1 : parseInputDate l1 = .ok d1)
    (h2 : parseInputDate l2 = .ok d2) (h3 : parseInputDate l3 = .ok d3)
    (hwin : readHeader (l0 :: l1 :: l2 :: l3 :: rest) = .ok win)
    (hev : emitCourse win course w = .ok (e1, e2)) :
    e1.rrule = "FREQ=WEEKLY;WKST=SU;BYDAY=" ++ String.intercalate "," w ++ ";UNTIL=" ++
      formatLocal (d1.AddDate (-1)) ∧
    e2.rrule = "FREQ=WEEKLY;WKST=SU;BYDAY=" ++ String.intercalate "," w ++ ";UNTIL=" ++
      formatLocal d3 := by
  rw [readHeader_four l0 l1 l2 l3 rest d0 d1 d2 d3 h0 h1 h2 h3] at hwin
  simp only [Except.ok.injEq] at hwin
  subst hwin
  unfold emitCourse at hev
  cases ha : createEvent course d0 (d1.AddDate (-1)) w with
  | error err => simp only [ha] at hev; cases hev
  | ok a =>
    cases hb : createEvent course (d2.AddDate 1) d3 w with
    | error err => simp only [ha, hb] at hev; cases hev
    | ok b =>
      simp only [ha, hb, Except.ok.injEq, Prod.mk.injEq] at hev
      obtain ⟨rfl, rfl⟩ := hev
      exact ⟨createEvent_rrule _ _ _ _ _ ha, createEvent_rrule _ _ _ _ _ hb⟩

/-- Witness of C7: the header 01/01/2024, 15/02/2024, 22/02/2024, 30/04/2024
and a record held on Mondays and Fridays. -/
theorem emitCourse_rrule_witness :
    emitCourse ⟨Date 2024 1 1 0 0 0, Date 2024 2 14 0 0 0, Date 2024 2 23 0 0 0,
        Date 2024 4 30 0 0 0⟩ ⟨"Intro to Systems", "CS101", "Room 4", 9, 0, 10, 30⟩ ["MO", "FR"] =
      .ok (⟨"Intro to Systems, CS101", "Room 4", "20240101T090000", "20240101T103000",
          "FREQ=WEEKLY;WKST=SU;BYDAY=MO,FR;UNTIL=20240214T000000"⟩,
        ⟨"Intro to Systems, CS101", "Room 4", "20240223T090000", "20240223T103000",
          "FREQ=WEEKLY;WKST=SU;BYDAY=MO,FR;UNTIL=20240430T000000"⟩) ∧
    ("FREQ=WEEKLY;WKST=SU;BYDAY=MO,FR;UNTIL=20240214T000000" : String) =
      "FREQ=WEEKLY;WKST=SU;BYDAY=" ++ String.intercalate "," ["MO", "FR"] ++ ";UNTIL=" ++
        formatLocal ((Date 2024 2 15 0 0 0).AddDate (-1)) :=
  ⟨by decide,
    (emitCourse_rrule "01/01/2024" "15/02/2024" "22/02/2024" "30/04/2024" []
      (Date 2024 1 1 0 0 0) (Date 2024 2 15 0 0 0) (Date 2024 2 22 0 0 0) (Date 2024 4 30 0 0 0)
      ⟨Date 2024 1 1 0 0 0, Date 2024 2 14 0 0 0, Date 2024 2 23 0 0 0, Date 2024 4 30 0 0 0⟩
      ⟨"Intro to Systems", "CS101", "Room 4", 9, 0, 10, 30⟩ ["MO", "FR"]
      ⟨"Intro to Systems, CS101", "Room 4", "20240101T090000", "20240101T103000",
        "FREQ=WEEKLY;WKST=SU;BYDAY=MO,FR;UNTIL=20240214T000000"⟩
      ⟨"Intro to Systems, CS101", "Room 4", "20240223T090000", "20240223T103000",
        "FREQ=WEEKLY;WKST=SU;BYDAY=MO,FR;UNTIL=20240430T000000"⟩
      (by decide) (by decide) (by decide) (by decide) (by decide) (by decide)).1⟩

/-- C2: the run on the header 01/01/2024, 15/02/2024, 22/02/2024, 30/04/2024
for a record held on Mondays and Wednesdays. The day after the break,
23/02/2024, is a Friday; both codes lie before it in the week, so the second
`createEvent` call ends in `panic("something wrong")`, the record yields no
events and the run produces no calendar. -/
theorem emitCourse_after_break_panics :
    readHeader ["01/01/2024", "15/02/2024", "22/02/2024", "30/04/2024"] =
      .ok ⟨Date 2024 1 1 0 0 0, Date 2024 2 14 0 0 0, Date 2024 2 23 0 0 0,
        Date 2024 4 30 0 0 0⟩ ∧
    getWeekDay (Date 2024 2 23 0 0 0) = "FR" ∧
    (∀ c ∈ ["MO", "WE"], c ∈ weekdayCodes) ∧
    findStartDate (Date 2024 2 23 0 0 0) ["MO", "WE"] = .error .somethingWrong ∧
    createEvent ⟨"Intro to Systems", "CS101", "Room 4", 9, 0, 10, 30⟩
      (Date 2024 2 23 0 0 0) (Date 2024 4 30 0 0 0) ["MO", "WE"] = .error .somethingWrong ∧
    emitCourse ⟨Date 2024 1 1 0 0 0, Date 2024 2 14 0 0 0, Date 2024 2 23 0 0 0,
        Date 2024 4 30 0 0 0⟩ ⟨"Intro to Systems", "CS101", "Room 4", 9, 0, 10, 30⟩
      ["MO", "WE"] = .error .somethingWrong ∧
    run ["01/01/2024", "15/02/2024", "22/02/2024", "30/04/2024"]
      [[], [["Intro to Systems", "CS101", "Room 4, 0900 - 1030"]], [],
        [["Intro to Systems", "CS101", "Room 4, 0900 - 1030"]], [], [], [], []] =
      .error .somethingWrong := by
  decide

/-- Counterexample to C8: on the stated input the time `0900-1030` has nine
bytes, so the cell parser ends in the slice-bounds panic and the run produces
no events. -/
theorem run_round_trip_input_fails :
    run ["01/01/2024", "15/02/2024", "22/02/2024", "30/04/2024"]
      [[], [["Intro to Systems", "CS101", "Room 4, 0900-1030"]], [],
        [["Intro to Systems", "CS101", "Room 4, 0900-1030"]], [], [], [], []] =
      .error .sliceBoundsOutOfRange := by
  decide

/-- C8 (amended): with the header 01/01/2024, 15/02/2024, 22/02/2024,
30/04/2024 and the entry `Intro to Systems`, `CS101`, `Room 4, 0900 - 1030`
(a time of eleven bytes) under the cells with index 1 and 3, the walker yields
the one record with WeekdaySet MO, WE, and the first event of the record has
the summary `Intro to Systems, CS101`, the location `Room 4`, the times 09:00
to 10:30 on 01/01/2024, and the rule with `BYDAY=MO,WE` and
`UNTIL=20240214T000000`. -/
theorem round_trip_first_event :
    readHeader ["01/01/2024", "15/02/2024", "22/02/2024", "30/04/2024"] =
      .ok ⟨Date 2024 1 1 0 0 0, Date 2024 2 14 0 0 0, Date 2024 2 23 0 0 0,
        Date 2024 4 30 0 0 0⟩ ∧
    walk [[], [["Intro to Systems", "CS101", "Room 4, 0900 - 1030"]], [],
        [["Intro to Systems", "CS101", "Room 4, 0900 - 1030"]], [], [], [], []] =
      .ok [(⟨"Intro to Systems", "CS101", "Room 4", 9, 0, 10, 30⟩, ["MO", "WE"])] ∧
    createEvent ⟨"Intro to Systems", "CS101", "Room 4", 9, 0, 10, 30⟩
        (Date 2024 1 1 0 0 0) (Date 2024 2 14 0 0 0) ["MO", "WE"] =
      .ok ⟨"Intro to Systems, CS101", "Room 4", "20240101T090000", "20240101T103000",
        "FREQ=WEEKLY;WKST=SU;BYDAY=MO,WE;UNTIL=20240214T000000"⟩ := by
  decide

end CmuRegIcs
